import Mathlib

/-!
Verification development for the mojito-waterfall timed-span aggregation
engine (`src/yui_modules/waterfall.common.js`).

The JavaScript source is shallowly embedded as executable Lean definitions:

* JS strings are modelled as `List Char` (with `String` wrappers at the
  borders); JS `split`, `trim`, `join` and object/assoc-map operations are
  given as explicit Lean functions mirroring the builtin semantics.
* JS timestamps are modelled as integers.  `undefined` is modelled with
  `Option`; where `NaN` can flow through arithmetic in the render/stats
  phase a three-valued type `JsNum` (`undef`, `nan`, `num`) is used.
* Mutation is modelled by explicit state passing: the reconciler stack is a
  `List Profile` threaded through a step function, and in-place updates of
  tree nodes become functional updates at the corresponding position.
* The platform branch is fixed to the scalar-clock (browser) branch of
  `Waterfall._now` / `Waterfall._normalize`, with integer clock readings
  supplied as explicit arguments to the recording methods.
* The helper module `mojito-waterfall-time` (functions
  `Y.mojito.Waterfall.Time.msTimeToString` and `timeToMs`) and the JS
  builtins `eval` and `escape` are not part of this repository; they are
  modelled from the spec where marked, and the outcome of `eval` inside
  `Waterfall._executeExpression` is abstracted as an explicit
  `Except`-valued argument.
-/

/-! ## JS primitives -/

/-- JS truthiness of an optional number: `undefined` and `0` are falsy. -/
def jsTruthyN : Option Int → Bool
  | none => false
  | some n => n != 0

/-- JS `a || b` on optional numbers (used for `x = x || y` updates). -/
def jsOrN (a b : Option Int) : Option Int :=
  if jsTruthyN a then a else b

/-- JS truthiness of an optional string: `undefined` and `""` are falsy. -/
def jsTruthyS : Option String → Bool
  | none => false
  | some s => s != ""

/-- JS `a || b` where `a` is an optional string and `b` a string default. -/
def jsOrS (a : Option String) (b : String) : String :=
  match a with
  | none => b
  | some s => if s = "" then b else s

/-- Whitespace recognized by JS `String.prototype.trim`. -/
def jsIsWS (c : Char) : Bool :=
  c = ' ' || c = '\t' || c = '\n' || c = '\r' ||
  c = '\x0b' || c = '\x0c' || c = ' ' || c = '﻿'

/-- JS `trim` on a character list: strip whitespace from both ends. -/
def jsTrimL (l : List Char) : List Char :=
  ((l.dropWhile jsIsWS).reverse.dropWhile jsIsWS).reverse

/-- JS `trim` on a `String`. -/
def jsTrimS (s : String) : String :=
  ⟨jsTrimL s.toList⟩

/-- JS `String.prototype.split` with a single-character separator.
Splitting the empty string yields one empty part, as in JS. -/
def jsSplit (sep : Char) : List Char → List (List Char)
  | [] => [[]]
  | c :: cs =>
    match jsSplit sep cs with
    | [] => [[]]
    | p :: ps => if c = sep then [] :: p :: ps else (c :: p) :: ps

/-- JS `Array.prototype.join` with a single-character separator. -/
def jsJoin (sep : Char) : List (List Char) → List Char
  | [] => []
  | [p] => p
  | p :: ps => p ++ sep :: jsJoin sep ps

/-- Lookup in a JS object modelled as an insertion-ordered assoc list. -/
def assocGet {α : Type} (l : List (String × α)) (k : String) : Option α :=
  match l with
  | [] => none
  | (k₁, v) :: rest => if k₁ = k then some v else assocGet rest k

/-- JS property write `obj[k] = v`: update in place if present, else append
in insertion order. -/
def assocSet {α : Type} (l : List (String × α)) (k : String) (v : α) :
    List (String × α) :=
  match l with
  | [] => [(k, v)]
  | (k₁, v₁) :: rest =>
    if k₁ = k then (k₁, v) :: rest else (k₁, v₁) :: assocSet rest k v

/-- JS property update through a function at an existing key (no-op when the
key is absent). -/
def assocUpd {α : Type} (l : List (String × α)) (k : String) (f : α → α) :
    List (String × α) :=
  match l with
  | [] => []
  | (k₁, v₁) :: rest =>
    if k₁ = k then (k₁, f v₁) :: rest else (k₁, v₁) :: assocUpd rest k f

/-- `Y.mix(receiver, supplier)` without overwrite: supplier keys are added
only when absent from the receiver. -/
def mixKeep {α : Type} (receiver supplier : List (String × α)) :
    List (String × α) :=
  match supplier with
  | [] => receiver
  | (k, v) :: rest =>
    match assocGet receiver k with
    | some _ => mixKeep receiver rest
    | none => mixKeep (receiver ++ [(k, v)]) rest

/-- `Y.mix(receiver, supplier, true, null, 0, true)`: merge with overwrite,
as used for profile `data`. -/
def mixOver {α : Type} (receiver supplier : List (String × α)) :
    List (String × α) :=
  match supplier with
  | [] => receiver
  | (k, v) :: rest => mixOver (assocSet receiver k v) rest

/-- Replace the element at index `i` (JS in-place update of an array or of
an object held in a list of stack slots). -/
def listUpd {α : Type} : List α → Nat → (α → α) → List α
  | [], _, _ => []
  | x :: xs, 0, f => f x :: xs
  | x :: xs, i + 1, f => x :: listUpd xs i f

/-! ## ProfileKey (`waterfall.common.js` lines 26-56) -/

/-- Parsed profile key: rooted flag, path segments, optional duration
label, mirroring the fields of the JS `ProfileKey` constructor. -/
structure PKey where
  root : Bool
  profiles : List String
  duration : Option String
deriving DecidableEq, Repr

/-- The `ProfileKey` constructor, lines 26-48: record whether the raw key
starts with a slash, split on slashes, trim each part and keep the
non-empty ones, then split a trailing duration label off the last part. -/
def parsePKL (key : List Char) : PKey :=
  let root := key.head? = some '/'
  let parts := jsSplit '/' key
  let profiles := (parts.map jsTrimL).filter (fun p => p ≠ [])
  match profiles.getLast? with
  | none => ⟨root, [], none⟩
  | some lastP =>
    if lastP.contains ':' then
      let sub := jsSplit ':' lastP
      let newLast := jsTrimL (sub.headD [])
      let dur := jsTrimL (sub.getD 1 [])
      ⟨root, (profiles.dropLast ++ [newLast]).map (fun p => ⟨p⟩),
        some ⟨dur⟩⟩
    else
      ⟨root, profiles.map (fun p => ⟨p⟩), none⟩

/-- String-level wrapper of `parsePKL`. -/
def parsePK (s : String) : PKey := parsePKL s.toList

/-- `ProfileKey.prototype.toString` (lines 52-55): rooted prefix, segments
joined by slashes, truthy duration label appended after a colon (built at
character level). -/
def pkToString (pk : PKey) : String :=
  ⟨(if pk.root then ['/'] else []) ++
    jsJoin '/' (pk.profiles.map String.toList) ++
    (match pk.duration with
     | none => []
     | some d => if d = "" then [] else ':' :: d.toList)⟩

/-- Validity of a path component of a profile key: non-empty slash-free
chunks separated by single slashes, with an optional single leading slash.
Together with `validKeyL` this captures the language of
`PROFILE_KEY_REGEX` (line 13). -/
def validPathL (p : List Char) : Bool :=
  match jsSplit '/' p with
  | [] => false
  | first :: rest =>
    if first = [] then
      rest ≠ [] && rest.all (fun s => s ≠ [])
    else
      (first :: rest).all (fun s => s ≠ [])

/-- The language of `PROFILE_KEY_REGEX` (line 13),
an anchored `(\/?[^\/:]+)+(\/[^\/:]+)*(:[^\/:]+)?`: an optional leading
slash, one or more non-empty segments free of slash and colon separated by
slashes, and an optional trailing colon-prefixed non-empty label free of
slash and colon. -/
def validKeyL (k : List Char) : Bool :=
  match jsSplit ':' k with
  | [path] => validPathL path
  | [path, lbl] => validPathL path && lbl ≠ [] && !lbl.contains '/'
  | _ => false

/-- String-level wrapper of `validKeyL`. -/
def validKey (s : String) : Bool := validKeyL s.toList

example : validKey "a//b" = false := by decide
example : validKey "/a/b:c" = true := by decide
example : pkToString (parsePK "/a/b:c") = "/a/b:c" := by decide
example : parsePK "a:warm" = ⟨false, ["a"], some "warm"⟩ := by decide

/-! ## Profile tree (`waterfall.common.js` lines 58-164) -/

/-- A named duration bucket value: the per-label object stored in
`this.durations[label]`. -/
structure Dur where
  startTime : Option Int := none
  endTime : Option Int := none
deriving DecidableEq, Repr

/-- The scalar fields of a Profile node.  `durLabel` models the
`this.duration` alias installed by the constructor: the label whose bucket
`set` writes when the node was created from a key with a duration label. -/
structure PCore where
  key : PKey
  id : String
  type : String
  startTime : Option Int := none
  endTime : Option Int := none
  durations : Option (List (String × Dur)) := none
  durLabel : Option String := none
  data : List (String × String) := []
  closed : Bool := false
deriving DecidableEq, Repr

/-- Profile tree node: scalar core plus the `children` map from child id to
the ordered array of child occurrences. -/
inductive Profile where
  | mk : PCore → List (String × List Profile) → Profile

def Profile.core : Profile → PCore
  | .mk c _ => c

def Profile.children : Profile → List (String × List Profile)
  | .mk _ ch => ch

/-- The Profile constructor (lines 64-87): build the single-child chain for
the remaining segments; every level of a labelled key receives an empty
duration bucket for the label, and the label alias for `set`. -/
def mkProfileAux (root : Bool) : List String → Option String → Profile
  | segs, dur =>
    let durs : Option (List (String × Dur)) :=
      if jsTruthyS dur then some [(dur.getD "", {})] else none
    let durLbl : Option String := if jsTruthyS dur then dur else none
    let children : List (String × List Profile) :=
      match segs with
      | _ :: s₁ :: rest => [(s₁, [mkProfileAux false (s₁ :: rest) dur])]
      | _ => []
    .mk ⟨⟨root, segs, dur⟩, segs.headD "", segs.headD "", none, none, durs,
      durLbl, [], false⟩ children

/-- `new Profile(profileKey)` on a parsed key. -/
def mkProfile (pk : PKey) : Profile := mkProfileAux pk.root pk.profiles pk.duration

/-- Descend along the remaining key segments, taking the first element of
each child array; with the path of the stored key this reaches the node the
JS `this.profile` pointer references (the deepest node of the constructor
chain).  Constructor chains keep exactly this shape: later merges only ever
touch the deepest node or nodes below it. -/
def descendPath : Profile → List String → Profile
  | p, [] => p
  | p, s :: rest =>
    match assocGet p.children s with
    | some (c :: _) => descendPath c rest
    | _ => p

/-- The node referenced by `this.profile`. -/
def getDeepest (p : Profile) : Profile :=
  descendPath p (p.core.key.profiles.drop 1)

/-- Apply a functional update at the node referenced by `this.profile`,
rebuilding the chain above it. -/
def updatePath : Profile → List String → (Profile → Profile) → Profile
  | p, [], f => f p
  | p, s :: rest, f =>
    match assocGet p.children s with
    | some (c :: cs) =>
      Profile.mk p.core (assocSet p.children s (updatePath c rest f :: cs))
    | _ => p

def updateDeepest (p : Profile) (f : Profile → Profile) : Profile :=
  updatePath p (p.core.key.profiles.drop 1) f

/-- Profile.prototype.set (lines 95-109): write start and end time into the
labelled duration bucket when the node carries a duration label, otherwise
into the node itself, keeping already-truthy values; merge the attached
data with overwrite; refresh the type of the top node from the deepest
data. -/
def profileSet (p : Profile) (st en : Option Int) (d : List (String × String)) :
    Profile :=
  let p₁ := updateDeepest p (fun dp =>
    let c := dp.core
    let c₁ :=
      match c.durLabel with
      | some lbl =>
        { c with durations := some (assocUpd (c.durations.getD []) lbl (fun du =>
            ⟨jsOrN du.startTime st, jsOrN du.endTime en⟩)) }
      | none =>
        { c with startTime := jsOrN c.startTime st, endTime := jsOrN c.endTime en }
    Profile.mk { c₁ with data := mixOver c₁.data d } dp.children)
  let dType := assocGet (getDeepest p₁).core.data "type"
  Profile.mk { p₁.core with type := jsOrS dType p₁.core.type } p₁.children

mutual

/-- Profile.prototype.add (lines 117-163), as a function of the node the JS
parentProfile references and of the closed profile being merged into it:
a fragment without id contributes its durations to the parent; a new id
installs a fresh one-element child array; otherwise the last occurrence for
the id receives the incoming durations, or (while it is still open) the
incoming children or scalar fields, and a closed last occurrence makes the
incoming profile a new sibling.  The recursive case iterates over the
incoming children map and each child array in order, exactly like the
nested `Y.Object.each`/`Y.Array.each` loops, via `addChildren` and
`addList`. -/
def addTo (parentProfile : Profile) (profile : Profile) : Profile :=
  match profile with
  | .mk pCore pChildren =>
    if pCore.id = "" then
      let durs := some (mixKeep (parentProfile.core.durations.getD [])
        (pCore.durations.getD []))
      Profile.mk { parentProfile.core with durations := durs }
        parentProfile.children
    else
      match assocGet parentProfile.children pCore.id with
      | none =>
        Profile.mk parentProfile.core
          (parentProfile.children ++ [(pCore.id, [Profile.mk pCore pChildren])])
      | some arr =>
        match arr.getLast? with
        | none => parentProfile
        | some lastProfile =>
          let put := fun (last₁ : Profile) => Profile.mk parentProfile.core
            (assocSet parentProfile.children pCore.id (arr.dropLast ++ [last₁]))
          if pCore.durations.isSome then
            let durs := some (mixKeep (lastProfile.core.durations.getD [])
              (pCore.durations.getD []))
            put (Profile.mk { lastProfile.core with durations := durs }
              lastProfile.children)
          else if lastProfile.core.startTime.isNone && !pChildren.isEmpty then
            put (addChildren lastProfile pChildren)
          else if lastProfile.core.startTime.isNone then
            put (Profile.mk
              { lastProfile.core with
                  startTime := pCore.startTime
                  endTime := pCore.endTime
                  type := jsOrS (assocGet pCore.data "type") lastProfile.core.type
                  data := mixOver lastProfile.core.data pCore.data }
              lastProfile.children)
          else
            Profile.mk parentProfile.core
              (assocSet parentProfile.children pCore.id
                (arr ++ [Profile.mk pCore pChildren]))
termination_by structural profile

/-- The `Y.Object.each` loop of the recursive case of `add`. -/
def addChildren (parent : Profile) (entries : List (String × List Profile)) :
    Profile :=
  match entries with
  | [] => parent
  | (_, arr) :: rest => addChildren (addList parent arr) rest
termination_by structural entries

/-- The `Y.Array.each` loop of the recursive case of `add`. -/
def addList (parent : Profile) (l : List Profile) : Profile :=
  match l with
  | [] => parent
  | c :: rest => addList (addTo parent c) rest
termination_by structural l

end

/-- Branch equation of `addTo`: a fragment without id merges its durations
into the parent node. -/
theorem addTo_fragment (parent profile : Profile) (h : profile.core.id = "") :
    addTo parent profile =
      Profile.mk
        { parent.core with durations := some (mixKeep
            (parent.core.durations.getD [])
            (profile.core.durations.getD [])) }
        parent.children := by
  rcases profile with ⟨pc, pch⟩
  rcases parent with ⟨qc, qch⟩
  simp only [Profile.core, Profile.children] at h ⊢
  simp [addTo, h, Profile.core, Profile.children]

/-- Branch equation of `addTo`: an unseen id installs a fresh one-element
child array at the end of the children map. -/
theorem addTo_newChild (parent profile : Profile) (h : ¬ profile.core.id = "")
    (h₂ : assocGet parent.children profile.core.id = none) :
    addTo parent profile =
      Profile.mk parent.core
        (parent.children ++ [(profile.core.id, [profile])]) := by
  rcases profile with ⟨pc, pch⟩
  rcases parent with ⟨qc, qch⟩
  simp only [Profile.core, Profile.children] at h h₂ ⊢
  simp [addTo, h, h₂, Profile.core, Profile.children]

/-- Branch equation of `addTo`: an incoming profile with durations merges
them into the last existing occurrence. -/
theorem addTo_mergeDurations (parent profile : Profile)
    (arr : List Profile) (lastP : Profile) (h : ¬ profile.core.id = "")
    (h₂ : assocGet parent.children profile.core.id = some arr)
    (h₃ : arr.getLast? = some lastP) (h₄ : profile.core.durations.isSome) :
    addTo parent profile =
      Profile.mk parent.core
        (assocSet parent.children profile.core.id (arr.dropLast ++
          [Profile.mk
            { lastP.core with durations := some (mixKeep
                (lastP.core.durations.getD [])
                (profile.core.durations.getD [])) }
            lastP.children])) := by
  rcases profile with ⟨pc, pch⟩
  rcases parent with ⟨qc, qch⟩
  rcases lastP with ⟨lc, lch⟩
  simp only [Profile.core, Profile.children] at h h₂ h₄ ⊢
  simp [addTo, h, h₂, h₃, h₄, Profile.core, Profile.children]

/-- Branch equation of `addTo`: an incoming childless profile without
durations fills in a still-open last occurrence. -/
theorem addTo_mergeScalar (parent profile : Profile)
    (arr : List Profile) (lastP : Profile) (h : ¬ profile.core.id = "")
    (h₂ : assocGet parent.children profile.core.id = some arr)
    (h₃ : arr.getLast? = some lastP) (h₄ : profile.core.durations = none)
    (h₅ : lastP.core.startTime = none) (h₆ : profile.children = []) :
    addTo parent profile =
      Profile.mk parent.core
        (assocSet parent.children profile.core.id (arr.dropLast ++
          [Profile.mk
            { lastP.core with
                startTime := profile.core.startTime
                endTime := profile.core.endTime
                type := jsOrS (assocGet profile.core.data "type")
                  lastP.core.type
                data := mixOver lastP.core.data profile.core.data }
            lastP.children])) := by
  rcases profile with ⟨pc, pch⟩
  rcases parent with ⟨qc, qch⟩
  rcases lastP with ⟨lc, lch⟩
  simp only [Profile.core, Profile.children] at h h₂ h₄ h₅ h₆ ⊢
  simp [addTo, h, h₂, h₃, h₄, h₅, h₆, Profile.core, Profile.children]

/-- Branch equation of `addTo`: a closed last occurrence makes the incoming
profile a new sibling at the end of the array. -/
theorem addTo_append (parent profile : Profile)
    (arr : List Profile) (lastP : Profile) (h : ¬ profile.core.id = "")
    (h₂ : assocGet parent.children profile.core.id = some arr)
    (h₃ : arr.getLast? = some lastP) (h₄ : profile.core.durations = none)
    (h₅ : lastP.core.startTime.isSome) :
    addTo parent profile =
      Profile.mk parent.core
        (assocSet parent.children profile.core.id (arr ++ [profile])) := by
  rcases Option.isSome_iff_exists.1 h₅ with ⟨v, hv⟩
  rcases profile with ⟨pc, pch⟩
  rcases parent with ⟨qc, qch⟩
  rcases lastP with ⟨lc, lch⟩
  simp only [Profile.core, Profile.children] at h h₂ h₄ hv ⊢
  simp [addTo, h, h₂, h₃, h₄, hv, Profile.core, Profile.children]

/-- `parent.add(closed)` as invoked by the reconciler: the merge happens at
the node the parent's `this.profile` pointer references. -/
def profileAdd (parent closed : Profile) : Profile :=
  updateDeepest parent (fun d => addTo d closed)

/-! ## Call log reconciler (`waterfall.common.js` lines 440-471, 630-735) -/

/-- JS number-or-undefined as it flows through the render and statistics
phase, where `undefined` arithmetic produces `NaN`. -/
inductive JsNum where
  | undef : JsNum
  | nan : JsNum
  | num : Int → JsNum
deriving DecidableEq, Repr

/-- JS value stored in an event record: string or number fields as
recorded, or a render-phase number once `getGui` normalizes the time. -/
inductive JVal where
  | s : String → JVal
  | i : Int → JVal
  | jn : JsNum → JVal
deriving DecidableEq, Repr

/-- One record of the append-only call log `this._calls`: the raw profile
key (or the event name), the clock reading taken by the recording method,
and the attached data object. -/
inductive Call where
  | start : String → Int → List (String × String) → Call
  | end_ : String → Int → List (String × String) → Call
  | event : String → Int → List (String × String) → Call
deriving DecidableEq, Repr

/-- State threaded through `_processCalls`: the stack of open profiles
(index 0 is the synthetic root), the collected events, the absolute start
time, and the log of non-fatal errors as (message, profileKeyStr) pairs
passed to `Waterfall._error`. -/
structure RecState where
  stack : List Profile
  events : List (List (String × JVal))
  absoluteStartTime : Option Int
  errors : List (String × Option String)

/-- Helper for `findMatch`: prefer a match further from the root (the JS
loop walks downward from the top), never matching index 0. -/
def findMatchFrom (key : String) : List Profile → Nat → Option Nat
  | [], _ => none
  | p :: rest, i =>
    match findMatchFrom key rest (i + 1) with
    | some j => some j
    | none => if 1 ≤ i && pkToString p.core.key == key then some i else none

/-- The matching loop of lines 679-684: scan from the top of the stack down
to index 1 for the first profile whose canonical key string equals that of
the key being ended, returning its index. -/
def findMatch (stack : List Profile) (key : String) : Option Nat :=
  findMatchFrom key stack 0

/-- Processing of one logged call (lines 646-708): fix the absolute start
time on the first start or event; record events verbatim; reject empty or
grammar-invalid keys with a logged error; push a fresh started profile;
match an end against the stack, close and splice the match, and merge it
into the synthetic root when the key is rooted, otherwise into the profile
just below the match. -/
def processCall (s : RecState) (c : Call) : RecState :=
  let abs₀ :=
    if s.absoluteStartTime.isSome then s.absoluteStartTime
    else
      match c with
      | .start _ t _ => some t
      | .event _ t _ => some t
      | .end_ _ _ _ => none
  match c with
  | .event name t d =>
    let ev := mixKeep (d.map (fun e => (e.1, JVal.s e.2)))
      [("type", .s name), ("time", .i t)]
    { s with absoluteStartTime := abs₀, events := s.events ++ [ev] }
  | .start k t d =>
    let k := jsTrimS k
    if k = "" || !validKey k then
      { s with absoluteStartTime := abs₀,
               errors := s.errors ++ [("Invalid profile.", some k)] }
    else
      let p := profileSet (mkProfile (parsePK k)) (some t) none d
      { s with absoluteStartTime := abs₀, stack := s.stack ++ [p] }
  | .end_ k t d =>
    let k := jsTrimS k
    if k = "" || !validKey k then
      { s with absoluteStartTime := abs₀,
               errors := s.errors ++ [("Invalid profile.", some k)] }
    else
      let pk := parsePK k
      match findMatch s.stack (pkToString pk) with
      | none =>
        { s with absoluteStartTime := abs₀,
                 errors := s.errors ++
                   [("Start was never called.", some (pkToString pk))] }
      | some i =>
        match s.stack.get? i with
        | none => { s with absoluteStartTime := abs₀ }
        | some prof =>
          let p₁ := profileSet prof none (some t) d
          let closed := Profile.mk { p₁.core with closed := true } p₁.children
          let stack₁ := s.stack.eraseIdx i
          let pidx := if pk.root then 0 else i - 1
          { s with absoluteStartTime := abs₀,
                   stack := listUpd stack₁ pidx (fun par => profileAdd par closed) }

/-- The synthetic root profile `new Profile(⟨profiles := [root]⟩)`
(lines 639-641). -/
def rootProfile0 : Profile := mkProfile ⟨false, ["root"], none⟩

/-- Initial reconciler state: the stack holds only the synthetic root. -/
def initRecState : RecState := ⟨[rootProfile0], [], none, []⟩

/-- Fold the whole call log through `processCall`. -/
def processCallList (calls : List Call) : RecState :=
  calls.foldl processCall initRecState

/-- Finalization sweep (lines 711-728): every profile left open on the
stack beyond the root is reported, and its already-closed top-level
children are re-parented directly under the root. -/
def sweep (s : RecState) : Profile × List (String × Option String) :=
  (s.stack.drop 1).foldl
    (fun acc p =>
      if p.core.closed then acc
      else
        ((p.children.map (fun e => e.2)).flatten.foldl
           (fun r c => if c.core.closed then profileAdd r c else r) acc.1,
         acc.2 ++ [("End was never called.", some (pkToString p.core.key))]))
    (s.stack.headD rootProfile0, s.errors)

/-- `_processCalls` end to end: fold the log, then run the sweep; the first
component is the finished `_rootProfile`. -/
def reconcile (calls : List Call) : Profile × RecState :=
  let s := processCallList calls
  let r := sweep s
  (r.1, { s with errors := r.2 })

/-! ## Render-tree normalization (`waterfall.common.js` lines 495-628) -/

/-- JS subtraction: numeric on numbers, `NaN` when either side is
`undefined` or `NaN`. -/
def jsSub : JsNum → JsNum → JsNum
  | .num a, .num b => .num (a - b)
  | _, _ => .nan

/-- JS addition with the same propagation. -/
def jsAdd : JsNum → JsNum → JsNum
  | .num a, .num b => .num (a + b)
  | _, _ => .nan

/-- `Math.min`: `NaN` when either argument is `undefined` or `NaN`. -/
def jsMin : JsNum → JsNum → JsNum
  | .num a, .num b => .num (min a b)
  | _, _ => .nan

/-- `Math.max` with the same propagation. -/
def jsMax : JsNum → JsNum → JsNum
  | .num a, .num b => .num (max a b)
  | _, _ => .nan

/-- JS `<`: false whenever either side is not a number. -/
def jsLt : JsNum → JsNum → Bool
  | .num a, .num b => a < b
  | _, _ => false

/-- JS `>`: false whenever either side is not a number. -/
def jsGt : JsNum → JsNum → Bool
  | .num a, .num b => a > b
  | _, _ => false

/-- The pattern `x !== undefined ? Math.min(x, y) : y`. -/
def jsMinOr (a b : JsNum) : JsNum :=
  if a = .undef then b else jsMin a b

/-- The pattern `x !== undefined ? Math.max(x, y) : y`. -/
def jsMaxOr (a b : JsNum) : JsNum :=
  if a = .undef then b else jsMax a b

/-- JS `t || 0` on a render-phase time value. -/
def jsNumOr0 : JsNum → Int
  | .num n => if n = 0 then 0 else n
  | _ => 0

/-- `Waterfall._normalize` (lines 737-749), scalar-clock branch: falsy
times (undefined or zero) normalize to undefined, others are shifted by the
absolute start time; subtracting an unset absolute start gives `NaN`. -/
def normalizeTime (absStart : Option Int) (time : Option Int) : JsNum :=
  if !jsTruthyN time then .undef
  else
    match time, absStart with
    | none, _ => .undef
    | some t, some a => .num (t - a)
    | some _, none => .nan

/-- One entry of a row's `durations` array: pushed by `createRows` with
only `type` and `duration`; the statistics walk later fills `startMs` and
`endMs` (absent properties read as undefined). -/
structure DurRow where
  type : String
  duration : JsNum
  startTime : JsNum := .undef
  endTime : JsNum := .undef
  startMs : JsNum := .undef
  endMs : JsNum := .undef
deriving DecidableEq, Repr

/-- The scalar fields of a render row.  The row object is the profile data
object itself, so arbitrary attached attributes (including `Name` and
`type`) live in `data`; the fields written by `createRows` and the
statistics walk are modelled structurally. -/
structure RowCore where
  data : List (String × String)
  durations : List DurRow := []
  startTime : JsNum := .undef
  endTime : JsNum := .undef
  startMs : JsNum := .undef
  endMs : JsNum := .undef
deriving DecidableEq, Repr

/-- A render row: scalar core plus the `details` child rows (an empty list
models the deleted `details` property: both make the recursive statistics
walk a no-op). -/
inductive Row where
  | mk : RowCore → List Row → Row

def Row.core : Row → RowCore
  | .mk c _ => c

def Row.details : Row → List Row
  | .mk _ d => d

mutual

/-- `createRows` (lines 523-596): normalize the profile bounds, emit one
duration entry per bucket while accumulating their coverage and extending
the profile bounds, recurse into the children while further extending the
bounds, then synthesize the default `Elapsed Time` bucket when no explicit
bucket exists or an `Other` bucket when the explicit buckets under-cover
the span.  The second component is the running `absoluteEndTime`; the
`dataOv` argument carries the `childProfile.data.Name` assignment the
caller performed just before the recursive call. -/
def createRows (absStart : Option Int) (absEnd : Int)
    (dataOv : Option (List (String × String))) (profile : Profile) :
    Row × Int :=
  match profile with
  | .mk pc pch =>
    let rowData := dataOv.getD pc.data
    let st₀ := normalizeTime absStart pc.startTime
    let en₀ := normalizeTime absStart pc.endTime
    let durFold := (pc.durations.getD []).foldl
      (fun (acc : List DurRow × JsNum × JsNum × JsNum) e =>
        let dst := normalizeTime absStart e.2.startTime
        let den := normalizeTime absStart e.2.endTime
        let d := jsSub den dst
        (acc.1 ++ [{ type := e.1, duration := d }], jsAdd acc.2.1 d,
         jsMinOr acc.2.2.1 dst, jsMaxOr acc.2.2.2 den))
      ([], .num 0, st₀, en₀)
    let chFold := createRowsEntries absStart absEnd durFold.2.2.1
      durFold.2.2.2 pch
    let details := chFold.1
    let st := chFold.2.1
    let en := chFold.2.2.1
    let totalTime := jsSub en st
    let durs :=
      if durFold.1.isEmpty then
        [({ type := "Elapsed Time", duration := totalTime } : DurRow)]
      else if jsLt durFold.2.1 totalTime then
        durFold.1 ++ [{ type := "Other", duration := jsSub totalTime durFold.2.1 }]
      else durFold.1
    let row := Row.mk
      { data := rowData, durations := durs, startTime := st, endTime := en }
      details
    (row, max chFold.2.2.2 (jsNumOr0 en))
termination_by structural profile

/-- The `Y.Object.each` loop over `profile.children` in `createRows`
(lines 554-571): each child array contributes detail rows and its
accumulated first start and last end, which extend the profile bounds. -/
def createRowsEntries (absStart : Option Int) (absEnd : Int) (st en : JsNum)
    (entries : List (String × List Profile)) :
    List Row × JsNum × JsNum × Int :=
  match entries with
  | [] => ([], st, en, absEnd)
  | (_, arr) :: rest =>
    let r := createRowsList absStart absEnd .undef .undef arr
    let st₁ := jsMinOr st r.2.1
    let en₁ := jsMaxOr en r.2.2.1
    let after := createRowsEntries absStart r.2.2.2 st₁ en₁ rest
    (r.1 ++ after.1, after.2.1, after.2.2.1, after.2.2.2)
termination_by structural entries

/-- The `Y.Array.each` loop over one child array (lines 558-566): assign
each child a `Name` defaulting to its type, create its rows, and track the
first defined start time and the last end time. -/
def createRowsList (absStart : Option Int) (absEnd : Int) (pST pET : JsNum)
    (l : List Profile) : List Row × JsNum × JsNum × Int :=
  match l with
  | [] => ([], pST, pET, absEnd)
  | c :: rest =>
    let newData := assocSet c.core.data "Name"
      (jsOrS (assocGet c.core.data "Name") c.core.type)
    let r := createRows absStart absEnd (some newData) c
    let pST₁ := if pST = .undef then (r.1).core.startTime else pST
    let pET₁ := (r.1).core.endTime
    let after := createRowsList absStart r.2 pST₁ pET₁ rest
    (r.1 :: after.1, after.2.1, after.2.2.1, after.2.2.2)
termination_by structural l

end

/-! ## Statistics engine (`waterfall.common.js` lines 189-226, 293-428) -/

/-- JS value returned by the filter-expression evaluation. -/
inductive JsVal where
  | null : JsVal
  | undef : JsVal
  | bool : Bool → JsVal
  | num : Int → JsVal
  | str : String → JsVal
deriving DecidableEq, Repr

/-- `Waterfall._executeExpression` (lines 189-226).  A falsy expression
yields null immediately.  The variable extraction, longest-first sort and
textual substitution of lines 199-218 only shape the string handed to the
JS builtin `eval`, which is outside this repository; the outcome of that
evaluation is therefore abstracted as an explicit `Except` argument.  The
`try/catch` of lines 220-225 maps an evaluation failure to a logged error
and the result null. -/
def executeExpression (expression : Option String)
    (evalOutcome : Except String JsVal) : JsVal :=
  if !jsTruthyS expression then JsVal.null
  else
    match evalOutcome with
    | .ok v => v
    | .error _ => JsVal.null

/-- Modelled from the spec: `Y.mojito.Waterfall.Time.msTimeToString` of the
missing `mojito-waterfall-time` module renders a millisecond quantity as
text with the given precision.  The exact format is not specified in this
repository; the model renders the number followed by the unit, keeping the
function injective on numeric inputs. -/
def msTimeToString (t : JsNum) (prec : Nat) : String :=
  match prec, t with
  | _, .num n => toString n ++ "ms"
  | _, .nan => "NaNms"
  | _, .undef => "undefinedms"

/-- Modelled from the spec: `timeToMs` of the missing time module parses a
rendered time back to milliseconds; on scalar millisecond inputs it
preserves the value, and an unparsable rendering (of undefined or NaN)
becomes NaN. -/
def timeToMsModel : JsNum → JsNum
  | .num n => .num n
  | _ => .nan

/-- One collected occurrence of a statistics bucket (the object pushed by
`addStat`, lines 319-323). -/
structure StatOcc where
  startTime : JsNum
  endTime : JsNum
  root : Option String
deriving DecidableEq, Repr

/-- The occurrence fields `addStat` and the filter expression read from a
row or duration object. -/
structure StatTarget where
  type : Option String
  name : Option String
  startMs : JsNum
  endMs : JsNum
deriving DecidableEq, Repr

/-- Accumulator of the statistics walk: buckets keyed by type in first-seen
order, plus the running minimum and maximum times. -/
structure StatAcc where
  stats : List (String × List StatOcc)
  minTime : JsNum
  maxTime : JsNum
deriving DecidableEq, Repr

/-- JS `a || b` on two optional strings. -/
def jsOrSS (a b : Option String) : Option String :=
  if jsTruthyS a then a else b

/-- `addStat` (lines 310-327): skip the data point only when the
per-occurrence filter evaluates to the explicit value false; otherwise push
the occurrence under `profile.type || profile.Name` (an undefined key
coerces to the string undefined) and extend the global time bounds. -/
def addStat (profileFilter : Option String) (outcome : Except String JsVal)
    (t : StatTarget) (root : Option String) (acc : StatAcc) : StatAcc :=
  if executeExpression profileFilter outcome = JsVal.bool false then acc
  else
    let typeKey := (jsOrSS t.type t.name).getD "undefined"
    let occ : StatOcc := ⟨t.startMs, t.endMs, root⟩
    let stats₁ :=
      match assocGet acc.stats typeKey with
      | some arr => assocSet acc.stats typeKey (arr ++ [occ])
      | none => acc.stats ++ [(typeKey, [occ])]
    ⟨stats₁,
     if acc.minTime = .undef then t.startMs else jsMin t.startMs acc.minTime,
     if acc.maxTime = .undef then t.endMs else jsMax t.endMs acc.maxTime⟩

/-- `getMsTime` (lines 306-309) on a row: fill `startMs` and `endMs` from
the row times when still undefined.  In the modelled browser branch the
unit suffix round-trips through `timeToMs` value-preservingly. -/
def getMsTimeRow (r : RowCore) : RowCore :=
  { r with
      startMs := if r.startMs = .undef then timeToMsModel r.startTime else r.startMs
      endMs := if r.endMs = .undef then timeToMsModel r.endTime else r.endMs }

/-- `getMsTime` on a duration entry (whose `startTime` and `endTime`
properties were never written and read as undefined). -/
def getMsTimeDur (d : DurRow) : DurRow :=
  { d with
      startMs := if d.startMs = .undef then timeToMsModel d.startTime else d.startMs
      endMs := if d.endMs = .undef then timeToMsModel d.endTime else d.endMs }

/-- Stable insertion of one element: `x` goes after every already-placed
element `y` with `le y x`. -/
def insLe {α : Type} (le : α → α → Bool) (x : α) : List α → List α
  | [] => [x]
  | y :: ys => if le y x then y :: insLe le x ys else x :: y :: ys

/-- Stable insertion sort, modelling `Array.prototype.sort` with a
three-way comparator (`le a b` holds when the comparator does not require
`a` after `b`, which covers the NaN-compares-as-0 case). -/
def sortByLe {α : Type} (le : α → α → Bool) : List α → List α
  | [] => []
  | x :: xs => insLe le x (sortByLe le xs)

/-- The row comparator of lines 340-342: order by `startMs`, treating any
comparison involving NaN as a tie. -/
def rowLe (a b : Row) : Bool :=
  !(jsGt a.core.startMs b.core.startMs)

mutual

/-- Fuel bound for the statistics walk, permutation-invariant and larger
than the number of walk steps over the row forest. -/
def rowFuel : Row → Nat
  | .mk _ details => rowsFuel details + 2
termination_by structural r => r

def rowsFuel : List Row → Nat
  | [] => 2
  | r :: rest => rowFuel r + rowsFuel rest + 2
termination_by structural l => l

end

mutual

/-- `getStats` (lines 328-363): fill the ms times of every row, sort the
rows by start, give repeated names order suffixes, then walk the rows:
each non-default duration bucket and the row itself become statistics
occurrences, and the details are walked recursively under the row's root
name.  Recursion is bounded by explicit fuel, which every recursive call
decrements; the initial fuel of `computeStats` exceeds the walk length, so
the exhaustion branch is never taken there.  The first result component is
the row forest as mutated by the walk. -/
def getStatsF (pf : Option String) (oracle : StatTarget → Except String JsVal) :
    Nat → List Row → Option String → StatAcc → List Row × StatAcc
  | 0, rows, _, acc => (rows, acc)
  | fuel + 1, rows, root, acc =>
    let rows₁ := rows.map (fun r => Row.mk (getMsTimeRow r.core) r.details)
    let rows₂ := sortByLe rowLe rows₁
    let names := rows₂.foldl
      (fun m r =>
        let nm := (assocGet r.core.data "Name").getD "undefined"
        assocSet m nm (if (assocGet m nm).isSome then 1 else 0)) []
    getStatsRows pf oracle fuel rows₂ names root acc

/-- The per-row loop of `getStats` (lines 348-362), threading the name
counters, the accumulator and the mutated rows. -/
def getStatsRows (pf : Option String) (oracle : StatTarget → Except String JsVal) :
    Nat → List Row → List (String × Nat) → Option String → StatAcc →
      List Row × StatAcc
  | 0, rows, _, _, acc => (rows, acc)
  | _ + 1, [], _, _, acc => ([], acc)
  | fuel + 1, r :: rest, names, root, acc =>
    let nm := (assocGet r.core.data "Name").getD "undefined"
    let cnt := (assocGet names nm).getD 0
    let core₁ :=
      if cnt ≠ 0 then
        { r.core with data := assocSet r.core.data "Name" (nm ++ " (" ++ toString cnt ++ ")") }
      else r.core
    let names₁ := if cnt ≠ 0 then assocSet names nm (cnt + 1) else names
    let durFold := core₁.durations.foldl
      (fun (p : List DurRow × StatAcc) d =>
        if d.type ≠ "Elapsed Time" then
          let d₁ := getMsTimeDur d
          let tgt : StatTarget := ⟨some d₁.type, none, d₁.startMs, d₁.endMs⟩
          (p.1 ++ [d₁], addStat pf (oracle tgt) tgt root p.2)
        else (p.1 ++ [d], p.2))
      ([], acc)
    let core₂ := { core₁ with durations := durFold.1 }
    let rootOr := jsOrSS root (assocGet core₂.data "Name")
    let tgtRow : StatTarget :=
      ⟨assocGet core₂.data "type", assocGet core₂.data "Name",
       core₂.startMs, core₂.endMs⟩
    let acc₁ := addStat pf (oracle tgtRow) tgtRow rootOr durFold.2
    let sub := getStatsF pf oracle fuel r.details rootOr acc₁
    let after := getStatsRows pf oracle fuel rest names₁ root sub.2
    (Row.mk core₂ sub.1 :: after.1, after.2)

end

/-- A match of `minDuration.name === statType` (an unset name never equals
the bucket name). -/
def nameEq (o : Option String) (s : String) : Bool :=
  match o with
  | some n => n = s
  | none => false

/-- JS string coercion of a possibly undefined name. -/
def optName (o : Option String) : String := o.getD "undefined"

/-- JS division of the total by the call count (`Avg Duration`); modelled
with integer division, which no claim depends on. -/
def jsDivN (t : JsNum) (len : Nat) : JsNum :=
  match t with
  | .num n => if len = 0 then .nan else .num (n / (len : Int))
  | _ => .nan

/-- Fold state of the per-bucket loop (lines 377-399). -/
structure BucketFold where
  totalDuration : JsNum := .num 0
  minDur : Option JsNum := none
  minName : Option String := none
  maxDur : Option JsNum := none
  maxName : Option String := none
  summary : List (Option String × JsNum) := []
deriving DecidableEq, Repr

/-- The summary comparator of lines 303-305 (descending by duration, NaN
comparisons keep the order). -/
def summaryLe (a b : Option String × JsNum) : Bool :=
  !(jsGt (jsSub b.2 a.2) (.num 0))

/-- A finished statistics bucket (lines 368-376 after stringification). -/
structure BucketStat where
  name : String
  calls : Nat
  totalDuration : String
  avgDuration : String
  minDuration : String
  maxDuration : String
  summary : List (Option String × String)
deriving DecidableEq, Repr

/-- A bucket entry of the final stats object: either the finished bucket,
or the raw occurrence array left in place when the stats filter evaluated
to false (the early return of lines 407-409 skips the reassignment of line
423). -/
inductive StatEntry where
  | stat : BucketStat → StatEntry
  | raw : List StatOcc → StatEntry
deriving DecidableEq, Repr

/-- The final stats object: bucket entries in first-seen order plus the
`totalDuration` footer string. -/
structure StatsOut where
  entries : List (String × StatEntry)
  totalDuration : String
deriving DecidableEq, Repr

/-- One iteration of the numeric aggregation loop over a bucket
(lines 381-399): total the duration, track the first strictly smallest and
strictly largest occurrence with its name, and extend the summary. -/
def bucketStep (acc : BucketFold) (occ : StatOcc) : BucketFold :=
  let duration := jsSub occ.endTime occ.startTime
  let takeMin :=
    match acc.minDur with
    | none => true
    | some m => jsLt duration m
  let takeMax :=
    match acc.maxDur with
    | none => true
    | some m => jsGt duration m
  { totalDuration := jsAdd acc.totalDuration duration
    minDur := if takeMin then some duration else acc.minDur
    minName := if takeMin then occ.root else acc.minName
    maxDur := if takeMax then some duration else acc.maxDur
    maxName := if takeMax then occ.root else acc.maxName
    summary := acc.summary ++ [(occ.root, duration)] }

/-- The numeric aggregation loop over one bucket (lines 381-399). -/
def bucketFold (statArray : List StatOcc) : BucketFold :=
  statArray.foldl bucketStep {}

/-- One iteration of the `Y.Object.each` over the collected buckets
(lines 367-424): aggregate, apply the stats filter (whose evaluation
outcome is abstracted), then stringify the durations, annotate min and max
with the occurrence name unless it equals the bucket name, and sort the
summary by descending duration. -/
def computeBucketStat (statType : String) (statArray : List StatOcc)
    (statsFilter : Option String) (outcome : Except String JsVal) : StatEntry :=
  let f := bucketFold statArray
  if executeExpression statsFilter outcome = JsVal.bool false then
    .raw statArray
  else
    .stat
      { name := statType
        calls := statArray.length
        totalDuration := msTimeToString f.totalDuration 4
        avgDuration := msTimeToString (jsDivN f.totalDuration statArray.length) 4
        minDuration := msTimeToString (f.minDur.getD .undef) 4 ++
          (if nameEq f.minName statType then ""
           else " (" ++ optName f.minName ++ ")")
        maxDuration := msTimeToString (f.maxDur.getD .undef) 4 ++
          (if nameEq f.maxName statType then ""
           else " (" ++ optName f.maxName ++ ")")
        summary := (sortByLe summaryLe f.summary).map
          (fun e => (e.1, msTimeToString e.2 4)) }

/-- The configuration object as read by the engine: `config.headers` in
the constructor and `config.stats.profileFilter` / `config.stats.statsFilter`
in `computeStats` (the unused `config.stats.top` is omitted); the nesting
under `stats` is flattened. -/
structure WConfig where
  headers : Option (List String) := none
  profileFilter : Option String := none
  statsFilter : Option String := none
deriving DecidableEq, Repr

/-- `Waterfall.computeStats` (lines 293-428): run the statistics walk over
the rows (mutating them), aggregate every bucket, and render the total
duration footer.  The two oracle arguments supply the abstracted `eval`
outcomes for the per-occurrence filter and the per-bucket filter. -/
def computeStats (cfg : Option WConfig)
    (profOracle : StatTarget → Except String JsVal)
    (statsOracle : String → Except String JsVal)
    (rows : List Row) : List Row × StatsOut :=
  let pf := cfg.bind (fun c => c.profileFilter)
  let sf := cfg.bind (fun c => c.statsFilter)
  let r := getStatsF pf profOracle (rowsFuel rows) rows none ⟨[], .undef, .undef⟩
  let entries := r.2.stats.map
    (fun e => (e.1, computeBucketStat e.1 e.2 sf (statsOracle e.1)))
  (r.1, ⟨entries, msTimeToString (jsSub r.2.maxTime r.2.minTime) 4⟩)

/-! ## Waterfall facade (`waterfall.common.js` lines 166-187, 434-507, 751-756) -/

/-- Modelled from the spec: the JS global `escape` percent-encodes the
summary payload; no claim inspects the encoding, so it is modelled as the
identity. -/
def escapeJs (s : String) : String := s

/-- Normalization of a recorded event time (line 600): a recorded numeric
time goes through `_normalize`; a non-numeric value (possible only when the
caller supplied a `time` data field, which the no-overwrite mix preserves)
yields NaN when truthy. -/
def evTimeNorm (absStart : Option Int) (v : Option JVal) : JsNum :=
  match v with
  | none => .undef
  | some (.i t) => normalizeTime absStart (some t)
  | some (.s s) => if s = "" then .undef else .nan
  | some (.jn j) => if j = .undef then .undef else .nan

/-- The finalized waterfall structure returned by `getGui`
(lines 510-516). -/
structure GuiT where
  headers : List String
  rows : List Row
  units : String
  events : List (List (String × JVal))
  summary : List (String × String)
  stats : StatsOut

/-- The state of one Waterfall instance.  The JS `_disable` swaps the seven
public recording methods for an error-logging no-op and `pause`/`resume`
swap the three recording methods for silent no-ops; both method-slot states
are modelled by the `disabled` and `paused` flags, read in the same order
the slots resolve. -/
structure WInst where
  config : Option WConfig
  headers : Option (List String)
  events : List (List (String × JVal))
  calls : List Call
  paused : Bool
  disabled : Bool
  waterfall : Option GuiT
  rootProfile : Option Profile
  absoluteStartTime : Option Int
  absoluteEndTime : Int
  errors : List (String × Option String)

/-- The Waterfall constructor (lines 166-173). -/
def mkWaterfall (cfg : Option WConfig) : WInst :=
  ⟨cfg, cfg.bind (fun c => c.headers), [], [], false, false, none, none,
   none, 0, []⟩

/-- The error logged by the `_disable` replacement (lines 751-756); its
profile-key argument is undefined. -/
def disabledErr : String × Option String :=
  ("Cannot continue profiling after the waterfall has been finalized.", none)

/-- `Waterfall.prototype.start` (lines 440-449) with the clock reading as
an explicit argument: disabled instances log an error and return
undefined, paused instances silently do nothing, otherwise the call is
appended to the log and the timestamp returned. -/
def WInst.start (w : WInst) (key : String) (t : Int)
    (d : List (String × String)) : Option Int × WInst :=
  if w.disabled then (none, { w with errors := w.errors ++ [disabledErr] })
  else if w.paused then (none, w)
  else (some t, { w with calls := w.calls ++ [.start key t d] })

/-- `Waterfall.prototype.end` (lines 451-460). -/
def WInst.end_ (w : WInst) (key : String) (t : Int)
    (d : List (String × String)) : Option Int × WInst :=
  if w.disabled then (none, { w with errors := w.errors ++ [disabledErr] })
  else if w.paused then (none, w)
  else (some t, { w with calls := w.calls ++ [.end_ key t d] })

/-- `Waterfall.prototype.event` (lines 462-471). -/
def WInst.event (w : WInst) (name : String) (t : Int)
    (d : List (String × String)) : Option Int × WInst :=
  if w.disabled then (none, { w with errors := w.errors ++ [disabledErr] })
  else if w.paused then (none, w)
  else (some t, { w with calls := w.calls ++ [.event name t d] })

/-- `Waterfall.prototype.clear` (lines 473-475); not swapped by pause. -/
def WInst.clear (w : WInst) : WInst :=
  if w.disabled then { w with errors := w.errors ++ [disabledErr] }
  else { w with calls := [] }

/-- The overwrite-merge of `configure` (lines 436-438) on the flattened
configuration; a missing receiver config cannot be mutated.  No claim
depends on the merged value. -/
def configureMerge (c : Option WConfig) (n : WConfig) : Option WConfig :=
  match c with
  | none => none
  | some c₀ => some
      ⟨if n.headers.isSome then n.headers else c₀.headers,
       if n.profileFilter.isSome then n.profileFilter else c₀.profileFilter,
       if n.statsFilter.isSome then n.statsFilter else c₀.statsFilter⟩

/-- `Waterfall.prototype.configure` (lines 436-438). -/
def WInst.configure (w : WInst) (n : WConfig) : WInst :=
  if w.disabled then { w with errors := w.errors ++ [disabledErr] }
  else { w with config := configureMerge w.config n }

/-- `Waterfall.prototype.pause` (lines 477-484). -/
def WInst.pause (w : WInst) : WInst :=
  if w.disabled then { w with errors := w.errors ++ [disabledErr] }
  else { w with paused := true }

/-- `Waterfall.prototype.resume` (lines 486-493). -/
def WInst.resume (w : WInst) : WInst :=
  if w.disabled then { w with errors := w.errors ++ [disabledErr] }
  else { w with paused := false }

/-- `Waterfall.prototype.getGui` (lines 495-623): return the cached
waterfall when present; otherwise disable the instance, reconcile the call
log (memoised on `_rootProfile`), install the mandatory `Name` header,
normalize the event times, build the render rows, compute the statistics
(which mutates the rows), and cache the result.  The oracle arguments
abstract the `eval` outcomes used inside `computeStats`. -/
def WInst.getGui (w : WInst) (profOracle : StatTarget → Except String JsVal)
    (statsOracle : String → Except String JsVal) : GuiT × WInst :=
  match w.waterfall with
  | some g => (g, w)
  | none =>
    let w₁ := { w with disabled := true }
    let pr :=
      match w₁.rootProfile with
      | some r => (r, w₁.events, w₁.absoluteStartTime, w₁.errors)
      | none =>
        let rec₀ := reconcile w₁.calls
        (rec₀.1, w₁.events ++ rec₀.2.events, rec₀.2.absoluteStartTime,
         w₁.errors ++ rec₀.2.errors)
    let root := pr.1
    let absStart := pr.2.2.1
    let hd₀ := w₁.headers.getD []
    let headers := if hd₀.contains "Name" then hd₀ else "Name" :: hd₀
    let evFold := pr.2.1.foldl
      (fun (p : List (List (String × JVal)) × Int) ev =>
        let t := evTimeNorm absStart (assocGet ev "time")
        (p.1 ++ [assocSet ev "time" (.jn t)], max p.2 (jsNumOr0 t)))
      ([], 0)
    let cr := createRows absStart evFold.2 none root
    let rows₀ := (cr.1).details
    let cs := computeStats w₁.config profOracle statsOracle rows₀
    let summary := [("Timeline", escapeJs
      ("<div style=\"text-align:right\">Total Execution Time: " ++
        msTimeToString (.num cr.2) 4 ++ "</div>"))]
    let gui : GuiT := ⟨headers, cs.1, "ms", evFold.1, summary, cs.2⟩
    (gui, { w₁ with
              waterfall := some gui
              rootProfile := some root
              events := evFold.1
              absoluteStartTime := absStart
              absoluteEndTime := cr.2
              errors := pr.2.2.2 })

/-! ## Claim C1 -/

/-- Evaluation oracle for instances whose configuration carries no filter
expressions: the outcome is never consulted. -/
def nullOracle : StatTarget → Except String JsVal := fun _ => .ok JsVal.null

/-- Bucket-level counterpart of `nullOracle`. -/
def nullOracleS : String → Except String JsVal := fun _ => .ok JsVal.null

/-- The instance of the C1 scenario: `start("/r")` and `start("/r/a")` at
clock 100 (relative t=0), `end("/r/a")` at 105 (t=5), `end("/r")` at 110
(t=10). -/
def c1inst : WInst :=
  let w₁ := ((mkWaterfall none).start "/r" 100 []).2
  let w₂ := (w₁.start "/r/a" 100 []).2
  let w₃ := (w₂.end_ "/r/a" 105 []).2
  (w₃.end_ "/r" 110 []).2

/-- The finalized waterfall of the C1 scenario. -/
def c1gui : GuiT := (c1inst.getGui nullOracle nullOracleS).1

/-- Claim C1, counterexample: in the C1 scenario the row for `r` carries no
`Other` duration bucket at all (of duration 5 or otherwise), contradicting
the claimed `Other` bucket of 5: a row's `Other` gap is computed only from
its own explicit duration buckets, which `r` does not have. -/
theorem C1_counterexample :
    ¬ ∃ r ∈ c1gui.rows, ∃ d ∈ r.core.durations,
      d.type = "Other" ∧ d.duration = JsNum.num 5 := by
  have hb : c1gui.rows.all
      (fun r => r.core.durations.all
        (fun d => !(d.type == "Other" && d.duration == JsNum.num 5))) = true := rfl
  intro hex
  rcases hex with ⟨r, hr, d, hd, hty, hdur⟩
  have h₁ := List.all_eq_true.mp hb r hr
  have h₂ := List.all_eq_true.mp h₁ d hd
  simp [hty, hdur] at h₂

/-- Claim C1 as amended: the finalized waterfall of the C1 scenario has
exactly one row `r` with exactly one child row `a`; the child's single
duration bucket is `Elapsed Time` of 5, and `r` itself carries a single
`Elapsed Time` bucket of duration 10 (its full span): child coverage does
not produce an `Other` bucket. -/
theorem C1_amended_rows :
    c1gui.rows =
      [Row.mk
        ⟨[("Name", "r")],
         [⟨"Elapsed Time", .num 10, .undef, .undef, .undef, .undef⟩],
         .num 0, .num 10, .num 0, .num 10⟩
        [Row.mk
          ⟨[("Name", "a")],
           [⟨"Elapsed Time", .num 5, .undef, .undef, .undef, .undef⟩],
           .num 0, .num 5, .num 0, .num 5⟩ []]] := rfl

/-! ## Claim C4 -/

theorem trim_awarm : jsTrimS "a:warm" = "a:warm" := by decide

theorem trim_acold : jsTrimS "a:cold" = "a:cold" := by decide

theorem valid_awarm : validKey "a:warm" = true := by decide

theorem valid_acold : validKey "a:cold" = true := by decide

theorem parse_awarm : parsePK "a:warm" = ⟨false, ["a"], some "warm"⟩ := by decide

theorem parse_acold : parsePK "a:cold" = ⟨false, ["a"], some "cold"⟩ := by decide

theorem str_awarm : pkToString ⟨false, ["a"], some "warm"⟩ = "a:warm" := by decide

theorem str_acold : pkToString ⟨false, ["a"], some "cold"⟩ = "a:cold" := by decide

theorem str_root : pkToString ⟨false, ["root"], none⟩ = "root" := by decide

/-- The open profile created by `start` of a single-segment key with a
duration label, at clock `t`. -/
def pOpenLbl (s lbl : String) (t : Int) : Profile :=
  Profile.mk ⟨⟨false, [s], some lbl⟩, s, s, none, none,
    some [(lbl, ⟨some t, none⟩)], some lbl, [], false⟩ []

/-- The same profile once closed at clock `u`. -/
def pClosedLbl (s lbl : String) (t u : Int) : Profile :=
  Profile.mk ⟨⟨false, [s], some lbl⟩, s, s, none, none,
    some [(lbl, ⟨some t, some u⟩)], some lbl, [], true⟩ []

/-- The synthetic root with the given children map. -/
def rootWith (l : List (String × List Profile)) : Profile :=
  Profile.mk ⟨⟨false, ["root"], none⟩, "root", "root", none, none, none,
    none, [], false⟩ l

/-- Claim C4: for the trace start(a:warm), end(a:warm), start(a:cold),
end(a:cold) issued in order (with nonzero start clocks, since a zero JS
timestamp is falsy for the `x = x || y` time updates), the finalized tree
has exactly one child node with id `a` under the root, carrying the two
duration buckets `warm` and `cold`; no second sibling occurrence of `a` is
created. -/
theorem C4_sublabel_merge (t₁ t₂ t₃ t₄ : Int) (h₁ : t₁ ≠ 0) (h₃ : t₃ ≠ 0) :
    (reconcile [.start "a:warm" t₁ [], .end_ "a:warm" t₂ [],
                .start "a:cold" t₃ [], .end_ "a:cold" t₄ []]).1.children =
      [("a", [Profile.mk ⟨⟨false, ["a"], some "warm"⟩, "a", "a", none, none,
        some [("warm", ⟨some t₁, some t₂⟩), ("cold", ⟨some t₃, some t₄⟩)],
        some "warm", [], true⟩ []])] := by
  have e₁ : processCall initRecState (.start "a:warm" t₁ []) =
      ⟨[rootProfile0, pOpenLbl "a" "warm" t₁], [], some t₁, []⟩ := by
    simp [processCall, trim_awarm, valid_awarm, parse_awarm, initRecState,
      pOpenLbl, rootProfile0, mkProfile, mkProfileAux, profileSet,
      updateDeepest, updatePath, getDeepest, descendPath, assocGet, assocUpd,
      mixOver, jsOrN, jsOrS, jsTruthyN, jsTruthyS, Profile.core,
      Profile.children]
  have e₂ : processCall ⟨[rootProfile0, pOpenLbl "a" "warm" t₁], [], some t₁, []⟩
        (.end_ "a:warm" t₂ []) =
      ⟨[rootWith [("a", [pClosedLbl "a" "warm" t₁ t₂])]], [], some t₁, []⟩ := by
    simp [processCall, trim_awarm, valid_awarm, parse_awarm, str_awarm,
      str_root, pOpenLbl, pClosedLbl, rootWith, rootProfile0, mkProfile,
      mkProfileAux, profileSet, profileAdd, addTo_newChild, updateDeepest,
      updatePath, getDeepest, descendPath, findMatch, findMatchFrom, assocGet,
      assocSet, assocUpd, mixOver, listUpd, jsOrN, jsOrS, jsTruthyN,
      jsTruthyS, Profile.core, Profile.children, h₁]
  have e₃ : processCall ⟨[rootWith [("a", [pClosedLbl "a" "warm" t₁ t₂])]], [],
        some t₁, []⟩ (.start "a:cold" t₃ []) =
      ⟨[rootWith [("a", [pClosedLbl "a" "warm" t₁ t₂])], pOpenLbl "a" "cold" t₃],
       [], some t₁, []⟩ := by
    simp [processCall, trim_acold, valid_acold, parse_acold, pOpenLbl,
      pClosedLbl, rootWith, mkProfile, mkProfileAux, profileSet,
      updateDeepest, updatePath, getDeepest, descendPath, assocGet, assocUpd,
      mixOver, jsOrN, jsOrS, jsTruthyN, jsTruthyS, Profile.core,
      Profile.children]
  have e₄ : processCall ⟨[rootWith [("a", [pClosedLbl "a" "warm" t₁ t₂])],
        pOpenLbl "a" "cold" t₃], [], some t₁, []⟩ (.end_ "a:cold" t₄ []) =
      ⟨[rootWith [("a", [Profile.mk ⟨⟨false, ["a"], some "warm"⟩, "a", "a",
          none, none, some [("warm", ⟨some t₁, some t₂⟩),
            ("cold", ⟨some t₃, some t₄⟩)], some "warm", [], true⟩ []])]],
       [], some t₁, []⟩ := by
    simp [processCall, trim_acold, valid_acold, parse_acold, str_acold,
      str_awarm, str_root, pOpenLbl, pClosedLbl, rootWith, mkProfile,
      mkProfileAux, profileSet, profileAdd, addTo_mergeDurations,
      updateDeepest, updatePath, getDeepest, descendPath, findMatch,
      findMatchFrom, assocGet, assocSet, assocUpd, mixKeep, mixOver, listUpd,
      jsOrN, jsOrS, jsTruthyN, jsTruthyS, Profile.core, Profile.children, h₃]
  show (reconcile [.start "a:warm" t₁ [], .end_ "a:warm" t₂ [],
      .start "a:cold" t₃ [], .end_ "a:cold" t₄ []]).1.children = _
  rw [reconcile]
  rw [show processCallList [Call.start "a:warm" t₁ [], .end_ "a:warm" t₂ [],
      .start "a:cold" t₃ [], .end_ "a:cold" t₄ []] =
      ⟨[rootWith [("a", [Profile.mk ⟨⟨false, ["a"], some "warm"⟩, "a", "a",
          none, none, some [("warm", ⟨some t₁, some t₂⟩),
            ("cold", ⟨some t₃, some t₄⟩)], some "warm", [], true⟩ []])]],
       [], some t₁, []⟩ from by
    simp only [processCallList, List.foldl]
    rw [e₁, e₂, e₃, e₄]]
  simp [sweep, rootWith, Profile.core, Profile.children]

/-- Witness for C4 at concrete clocks 10, 20, 30, 40. -/
theorem C4_sublabel_merge_witness :
    (10 : Int) ≠ 0 ∧ (30 : Int) ≠ 0 ∧
    (reconcile [.start "a:warm" 10 [], .end_ "a:warm" 20 [],
                .start "a:cold" 30 [], .end_ "a:cold" 40 []]).1.children =
      [("a", [Profile.mk ⟨⟨false, ["a"], some "warm"⟩, "a", "a", none, none,
        some [("warm", ⟨some 10, some 20⟩), ("cold", ⟨some 30, some 40⟩)],
        some "warm", [], true⟩ []])] :=
  ⟨by decide, by decide,
   C4_sublabel_merge 10 20 30 40 (by decide) (by decide)⟩

/-! ## Congruence of the reconciler step -/

/-- The stack and event components of `processCall` do not depend on the
absolute start time or the error log. -/
theorem processCall_sim (st : List Profile) (ev : List (List (String × JVal)))
    (ab₁ ab₂ : Option Int) (er₁ er₂ : List (String × Option String)) (c : Call) :
    (processCall ⟨st, ev, ab₁, er₁⟩ c).stack =
      (processCall ⟨st, ev, ab₂, er₂⟩ c).stack ∧
    (processCall ⟨st, ev, ab₁, er₁⟩ c).events =
      (processCall ⟨st, ev, ab₂, er₂⟩ c).events := by
  cases c <;> simp only [processCall] <;> (repeat' split) <;> simp_all

/-- The absolute-start component of `processCall` depends only on its own
previous value and the call. -/
theorem processCall_abs (s₁ s₂ : RecState) (c : Call)
    (hab : s₁.absoluteStartTime = s₂.absoluteStartTime) :
    (processCall s₁ c).absoluteStartTime =
      (processCall s₂ c).absoluteStartTime := by
  obtain ⟨st₁, ev₁, ab₁, er₁⟩ := s₁
  obtain ⟨st₂, ev₂, ab₂, er₂⟩ := s₂
  simp only at hab
  cases hab
  cases c <;> simp only [processCall] <;> (repeat' split) <;> simp_all

/-- Folding any suffix of the call log preserves agreement of the stack
and event components. -/
theorem processCalls_sim (post : List Call) :
    ∀ (s₁ s₂ : RecState), s₁.stack = s₂.stack → s₁.events = s₂.events →
      (post.foldl processCall s₁).stack = (post.foldl processCall s₂).stack ∧
      (post.foldl processCall s₁).events = (post.foldl processCall s₂).events := by
  induction post with
  | nil => exact fun s₁ s₂ hst hev => ⟨hst, hev⟩
  | cons c rest ih =>
    intro s₁ s₂ hst hev
    obtain ⟨st₁, ev₁, ab₁, er₁⟩ := s₁
    obtain ⟨st₂, ev₂, ab₂, er₂⟩ := s₂
    simp only at hst hev
    cases hst
    cases hev
    simp only [List.foldl]
    exact ih _ _ (processCall_sim st₁ ev₁ ab₁ ab₂ er₁ er₂ c).1
      (processCall_sim st₁ ev₁ ab₁ ab₂ er₁ er₂ c).2

/-- Folding any suffix of the call log preserves agreement of the
absolute-start component. -/
theorem processCalls_abs (post : List Call) :
    ∀ (s₁ s₂ : RecState),
      s₁.absoluteStartTime = s₂.absoluteStartTime →
      (post.foldl processCall s₁).absoluteStartTime =
        (post.foldl processCall s₂).absoluteStartTime := by
  induction post with
  | nil => exact fun s₁ s₂ hab => hab
  | cons c rest ih =>
    intro s₁ s₂ hab
    simp only [List.foldl]
    exact ih _ _ (processCall_abs s₁ s₂ c hab)

/-! ## Claim C2 -/

/-- Claim C2: whenever an end call with a well-formed key finds a matching
open profile at stack index i (searching from the top, so arbitrarily many
other open profiles may sit above it), the closed profile is merged into
the synthetic root stack[0] when the key is rooted, and into the profile
immediately below the match (index i-1 after the splice) when it is not. -/
theorem C2_rooted_end_parent (s : RecState) (k : String) (t : Int)
    (d : List (String × String)) (i : Nat) (prof : Profile)
    (hne : jsTrimS k ≠ "") (hval : validKey (jsTrimS k) = true)
    (hfind : findMatch s.stack (pkToString (parsePK (jsTrimS k))) = some i)
    (hget : s.stack.get? i = some prof) :
    ((parsePK (jsTrimS k)).root = true →
      (processCall s (.end_ k t d)).stack =
        listUpd (s.stack.eraseIdx i) 0 (fun par => profileAdd par
          (Profile.mk { (profileSet prof none (some t) d).core with closed := true }
            (profileSet prof none (some t) d).children))) ∧
    ((parsePK (jsTrimS k)).root = false →
      (processCall s (.end_ k t d)).stack =
        listUpd (s.stack.eraseIdx i) (i - 1) (fun par => profileAdd par
          (Profile.mk { (profileSet prof none (some t) d).core with closed := true }
            (profileSet prof none (some t) d).children))) := by
  simp only [List.get?_eq_getElem?] at hget
  constructor <;> intro hroot <;>
    simp [processCall, hne, hval, hfind, hget, hroot]

/-- Witness for C2: the rooted end of `/x` matches below the unrelated open
profile `y` and merges into the root. -/
theorem C2_rooted_end_parent_witness :
    (jsTrimS "/x" ≠ "" ∧ validKey (jsTrimS "/x") = true ∧
      findMatch [rootProfile0, mkProfile (parsePK "/x"),
        mkProfile (parsePK "y")] (pkToString (parsePK (jsTrimS "/x"))) = some 1 ∧
      ([rootProfile0, mkProfile (parsePK "/x"),
        mkProfile (parsePK "y")].get? 1 = some (mkProfile (parsePK "/x")))) ∧
    ((parsePK (jsTrimS "/x")).root = true →
      (processCall ⟨[rootProfile0, mkProfile (parsePK "/x"),
          mkProfile (parsePK "y")], [], some 5, []⟩ (.end_ "/x" 9 [])).stack =
        listUpd ([rootProfile0, mkProfile (parsePK "/x"),
          mkProfile (parsePK "y")].eraseIdx 1) 0 (fun par => profileAdd par
          (Profile.mk { (profileSet (mkProfile (parsePK "/x")) none (some 9) []).core
              with closed := true }
            (profileSet (mkProfile (parsePK "/x")) none (some 9) []).children))) :=
  ⟨⟨by decide, by decide, by decide, rfl⟩,
   (C2_rooted_end_parent ⟨[rootProfile0, mkProfile (parsePK "/x"),
       mkProfile (parsePK "y")], [], some 5, []⟩ "/x" 9 [] 1
       (mkProfile (parsePK "/x")) (by decide) (by decide) (by decide) rfl).1⟩

/-! ## Claim C3 -/

/-- Claim C3: an end call whose well-formed key matches no open profile on
the stack never throws: it only appends the logged non-fatal error, leaving
the stack, the events and the absolute start time unchanged, and every
subsequent call is processed exactly as it would have been without the
unmatched end. -/
theorem C3_unmatched_end_dropped (s : RecState) (k : String) (t : Int)
    (d : List (String × String))
    (hne : jsTrimS k ≠ "") (hval : validKey (jsTrimS k) = true)
    (hfind : findMatch s.stack (pkToString (parsePK (jsTrimS k))) = none) :
    processCall s (.end_ k t d) =
      { s with errors := s.errors ++
          [("Start was never called.", some (pkToString (parsePK (jsTrimS k))))] } ∧
    ∀ post : List Call,
      (post.foldl processCall (processCall s (.end_ k t d))).stack =
        (post.foldl processCall s).stack ∧
      (post.foldl processCall (processCall s (.end_ k t d))).events =
        (post.foldl processCall s).events ∧
      (post.foldl processCall (processCall s (.end_ k t d))).absoluteStartTime =
        (post.foldl processCall s).absoluteStartTime := by
  have h₁ : processCall s (.end_ k t d) =
      { s with errors := s.errors ++
          [("Start was never called.", some (pkToString (parsePK (jsTrimS k))))] } := by
    obtain ⟨st, ev, ab, er⟩ := s
    simp only at hfind
    cases ab <;> simp [processCall, hne, hval, hfind]
  refine ⟨h₁, fun post => ?_⟩
  rw [h₁]
  exact ⟨(processCalls_sim post { s with errors := s.errors ++
            [("Start was never called.", some (pkToString (parsePK (jsTrimS k))))] }
            s rfl rfl).1,
         (processCalls_sim post { s with errors := s.errors ++
            [("Start was never called.", some (pkToString (parsePK (jsTrimS k))))] }
            s rfl rfl).2,
         processCalls_abs post { s with errors := s.errors ++
            [("Start was never called.", some (pkToString (parsePK (jsTrimS k))))] }
            s rfl⟩

/-- Witness for C3: ending the never-started key `x` on a fresh instance. -/
theorem C3_unmatched_end_dropped_witness :
    (jsTrimS "x" ≠ "" ∧ validKey (jsTrimS "x") = true ∧
      findMatch initRecState.stack (pkToString (parsePK (jsTrimS "x"))) = none) ∧
    processCall initRecState (.end_ "x" 7 []) =
      { initRecState with errors := initRecState.errors ++
          [("Start was never called.", some (pkToString (parsePK (jsTrimS "x"))))] } :=
  ⟨⟨by decide, by decide, by decide⟩,
   (C3_unmatched_end_dropped initRecState "x" 7 [] (by decide) (by decide)
     (by decide)).1⟩

/-! ## Claim C6 -/

/-- Claim C6: a start or end call whose raw key fails the path grammar (for
example a//b) only appends the logged non-fatal error: no node is created,
nothing is pushed onto the stack, the events are untouched, and all
subsequent calls produce exactly the stack and events they would have
produced without the malformed call. -/
theorem C6_invalid_key_dropped (s : RecState) (k : String) (t : Int)
    (d : List (String × String))
    (hbad : jsTrimS k = "" ∨ validKey (jsTrimS k) = false) :
    ((processCall s (.start k t d)).stack = s.stack ∧
     (processCall s (.start k t d)).events = s.events ∧
     (processCall s (.start k t d)).errors =
       s.errors ++ [("Invalid profile.", some (jsTrimS k))]) ∧
    (processCall s (.end_ k t d) =
      { s with errors := s.errors ++ [("Invalid profile.", some (jsTrimS k))] }) ∧
    ∀ post : List Call,
      (post.foldl processCall (processCall s (.start k t d))).stack =
        (post.foldl processCall s).stack ∧
      (post.foldl processCall (processCall s (.start k t d))).events =
        (post.foldl processCall s).events ∧
      (post.foldl processCall (processCall s (.end_ k t d))).stack =
        (post.foldl processCall s).stack ∧
      (post.foldl processCall (processCall s (.end_ k t d))).events =
        (post.foldl processCall s).events := by
  have hstart : (processCall s (.start k t d)).stack = s.stack ∧
      (processCall s (.start k t d)).events = s.events ∧
      (processCall s (.start k t d)).errors =
        s.errors ++ [("Invalid profile.", some (jsTrimS k))] := by
    obtain ⟨st, ev, ab, er⟩ := s
    rcases hbad with hb | hb <;> simp [processCall, hb]
  have hend : processCall s (.end_ k t d) =
      { s with errors := s.errors ++ [("Invalid profile.", some (jsTrimS k))] } := by
    obtain ⟨st, ev, ab, er⟩ := s
    rcases hbad with hb | hb <;> cases ab <;> simp [processCall, hb]
  refine ⟨hstart, hend, fun post => ?_⟩
  refine ⟨(processCalls_sim post _ s hstart.1 hstart.2.1).1,
          (processCalls_sim post _ s hstart.1 hstart.2.1).2, ?_, ?_⟩
  · rw [hend]
    exact (processCalls_sim post
      { s with errors := s.errors ++ [("Invalid profile.", some (jsTrimS k))] }
      s rfl rfl).1
  · rw [hend]
    exact (processCalls_sim post
      { s with errors := s.errors ++ [("Invalid profile.", some (jsTrimS k))] }
      s rfl rfl).2

/-- Witness for C6 at the malformed key a//b of the spec scenario. -/
theorem C6_invalid_key_dropped_witness :
    (jsTrimS "a//b" = "" ∨ validKey (jsTrimS "a//b") = false) ∧
    (processCall initRecState (.start "a//b" 3 [])).stack = initRecState.stack ∧
    (processCall initRecState (.start "a//b" 3 [])).errors =
      initRecState.errors ++ [("Invalid profile.", some (jsTrimS "a//b"))] :=
  ⟨Or.inr (by decide),
   (C6_invalid_key_dropped initRecState "a//b" 3 [] (Or.inr (by decide))).1.1,
   (C6_invalid_key_dropped initRecState "a//b" 3 [] (Or.inr (by decide))).1.2.2⟩

/-! ## Claim C5 -/

/-- N sequential start/end pairs for the same key, each pair closed before
the next opens. -/
def pairTrace (k : String) (a b : Int) : Nat → List Call
  | 0 => []
  | n + 1 => pairTrace k a b n ++ [.start k a [], .end_ k b []]

/-- The profile a start of a plain single-segment key pushes. -/
def pOpenC5 (seg : String) (a : Int) : Profile :=
  Profile.mk ⟨⟨false, [seg], none⟩, seg, seg, some a, none, none, none, [], false⟩ []

/-- The same occurrence once closed. -/
def pClosedC5 (seg : String) (a b : Int) : Profile :=
  Profile.mk ⟨⟨false, [seg], none⟩, seg, seg, some a, some b, none, none, [], true⟩ []

section C5sec

variable (k seg : String) (a b : Int)

/-- Effect of one start of a plain single-segment key on any state. -/
theorem C5_start_step (hne : jsTrimS k ≠ "") (hval : validKey (jsTrimS k) = true)
    (hparse : parsePK (jsTrimS k) = ⟨false, [seg], none⟩)
    (stack : List Profile) (ev : List (List (String × JVal)))
    (ab : Option Int) (er : List (String × Option String)) :
    processCall ⟨stack, ev, ab, er⟩ (.start k a []) =
      ⟨stack ++ [pOpenC5 seg a], ev, if ab.isSome then ab else some a, er⟩ := by
  simp [processCall, hne, hval, hparse, pOpenC5, mkProfile, mkProfileAux,
    profileSet, updateDeepest, updatePath, getDeepest, descendPath, assocGet,
    assocUpd, mixOver, jsOrN, jsOrS, jsTruthyN, jsTruthyS, Profile.core,
    Profile.children]

/-- Effect of the matching end when the open profile sits directly on the
root: the closed occurrence is merged into the root. -/
theorem C5_end_step (hne : jsTrimS k ≠ "") (hval : validKey (jsTrimS k) = true)
    (hparse : parsePK (jsTrimS k) = ⟨false, [seg], none⟩) (ha : a ≠ 0)
    (ch : List (String × List Profile)) (ev : List (List (String × JVal)))
    (ab : Option Int) (er : List (String × Option String)) :
    processCall ⟨[rootWith ch, pOpenC5 seg a], ev, ab, er⟩ (.end_ k b []) =
      ⟨[addTo (rootWith ch) (pClosedC5 seg a b)], ev,
       if ab.isSome then ab else none, er⟩ := by
  simp [processCall, hne, hval, hparse, pOpenC5, pClosedC5, rootWith,
    profileSet, profileAdd, updateDeepest, updatePath, getDeepest,
    descendPath, findMatch, findMatchFrom, assocGet, assocSet, assocUpd,
    mixOver, listUpd, jsOrN, jsOrS, jsTruthyN, jsTruthyS, Profile.core,
    Profile.children, ha]

/-- Last element of a non-empty replicate list. -/
theorem replicate_getLast (n : Nat) (x : Profile) :
    (List.replicate (n + 1) x).getLast? = some x := by
  induction n with
  | zero => rfl
  | succ m ih => simpa [List.replicate_succ] using ih

/-- The fresh synthetic root is the root with no children. -/
theorem rootProfile0_eq : rootProfile0 = rootWith [] := rfl

/-- Effect of one complete start/end pair on a root-only stack. -/
theorem C5_pair_step (hne : jsTrimS k ≠ "") (hval : validKey (jsTrimS k) = true)
    (hparse : parsePK (jsTrimS k) = ⟨false, [seg], none⟩) (ha : a ≠ 0)
    (ch : List (String × List Profile)) (ev : List (List (String × JVal)))
    (er : List (String × Option String)) :
    List.foldl processCall ⟨[rootWith ch], ev, some a, er⟩
        [.start k a [], .end_ k b []] =
      ⟨[addTo (rootWith ch) (pClosedC5 seg a b)], ev, some a, er⟩ := by
  show processCall (processCall ⟨[rootWith ch], ev, some a, er⟩ (.start k a []))
    (.end_ k b []) = _
  rw [C5_start_step k seg a hne hval hparse]
  simp only [List.cons_append, List.nil_append, ite_self]
  rw [C5_end_step k seg a b hne hval hparse ha]
  simp

/-- Invariant of the repeated-pair trace: after n complete pairs the stack
holds only the root, whose single child entry for the key id lists n
identical closed occurrences. -/
theorem C5_aux (hne : jsTrimS k ≠ "") (hval : validKey (jsTrimS k) = true)
    (hparse : parsePK (jsTrimS k) = ⟨false, [seg], none⟩)
    (hseg : seg ≠ "") (ha : a ≠ 0) :
    ∀ n, 1 ≤ n → processCallList (pairTrace k a b n) =
      ⟨[rootWith [(seg, List.replicate n (pClosedC5 seg a b))]], [], some a, []⟩ := by
  intro n hn
  induction n with
  | zero => omega
  | succ m ih =>
    have haddTo : ∀ m' : Nat, addTo (rootWith [(seg, List.replicate (m' + 1) (pClosedC5 seg a b))])
        (pClosedC5 seg a b) =
        rootWith [(seg, List.replicate (m' + 2) (pClosedC5 seg a b))] := by
      intro m'
      rw [addTo_append _ _ (List.replicate (m' + 1) (pClosedC5 seg a b)) (pClosedC5 seg a b)]
      · simp [rootWith, Profile.core, Profile.children, assocSet, pClosedC5,
          List.replicate_succ']
      · simp [pClosedC5, Profile.core, hseg]
      · simp [rootWith, pClosedC5, assocGet, Profile.core, Profile.children]
      · exact replicate_getLast m' (pClosedC5 seg a b)
      · simp [pClosedC5, Profile.core]
      · simp [replicate_getLast m' (pClosedC5 seg a b), pClosedC5, Profile.core]
    have hnew : addTo (rootWith []) (pClosedC5 seg a b) =
        rootWith [(seg, List.replicate 1 (pClosedC5 seg a b))] := by
      rw [addTo_newChild]
      · simp [rootWith, Profile.core, Profile.children, pClosedC5]
      · simp [pClosedC5, Profile.core, hseg]
      · simp [rootWith, Profile.children, assocGet]
    by_cases hm : 1 ≤ m
    · have hstep := ih hm
      show processCallList (pairTrace k a b m ++ [.start k a [], .end_ k b []]) = _
      rw [processCallList, List.foldl_append, ← processCallList, hstep]
      rw [C5_pair_step k seg a b hne hval hparse ha]
      obtain ⟨m', rfl⟩ : ∃ m', m = m' + 1 := ⟨m - 1, by omega⟩
      rw [haddTo m']
    · have hm0 : m = 0 := by omega
      subst hm0
      show processCallList ([] ++ [.start k a [], .end_ k b []]) = _
      rw [List.nil_append, processCallList]
      show processCall (processCall ⟨[rootProfile0], [], none, []⟩ (.start k a []))
        (.end_ k b []) = _
      rw [C5_start_step k seg a hne hval hparse]
      simp only [List.cons_append, List.nil_append, Option.isSome_none,
        Bool.false_eq_true, if_false, rootProfile0_eq]
      rw [C5_end_step k seg a b hne hval hparse ha]
      rw [hnew]
      simp

/-- Claim C5: issuing start(k), end(k) sequentially N times (N at least 1)
for a well-formed non-rooted single-segment label-free key k produces
exactly N sibling occurrences in the parent child list for k's id (the
start clock is taken nonzero, since a zero JS timestamp is falsy for the
`x = x || y` time update).  -/
theorem C5_repeat_siblings (N : Nat)
    (hne : jsTrimS k ≠ "") (hval : validKey (jsTrimS k) = true)
    (hparse : parsePK (jsTrimS k) = ⟨false, [seg], none⟩)
    (hseg : seg ≠ "") (ha : a ≠ 0) (hN : 1 ≤ N) :
    (reconcile (pairTrace k a b N)).1.children =
      [(seg, List.replicate N (pClosedC5 seg a b))] := by
  rw [reconcile, C5_aux k seg a b hne hval hparse hseg ha N hN]
  simp [sweep, rootWith, Profile.core, Profile.children]

end C5sec

/-- Witness for C5 at k = a, N = 2, clocks 10 and 20. -/
theorem C5_repeat_siblings_witness :
    (jsTrimS "a" ≠ "" ∧ validKey (jsTrimS "a") = true ∧
      parsePK (jsTrimS "a") = ⟨false, ["a"], none⟩ ∧ "a" ≠ "" ∧
      (10 : Int) ≠ 0 ∧ 1 ≤ 2) ∧
    (reconcile (pairTrace "a" 10 20 2)).1.children =
      [("a", List.replicate 2 (pClosedC5 "a" 10 20))] :=
  ⟨⟨by decide, by decide, by decide, by decide, by decide, by decide⟩,
   C5_repeat_siblings "a" "a" 10 20 2 (by decide) (by decide) (by decide)
     (by decide) (by decide) (by decide)⟩

/-! ## Claim C7 -/

/-- The cached branch of `getGui`: once a waterfall is stored, `getGui`
returns it without touching the instance. -/
theorem getGui_cached (w : WInst) (g : GuiT)
    (profOracle : StatTarget → Except String JsVal)
    (statsOracle : String → Except String JsVal)
    (h : w.waterfall = some g) :
    w.getGui profOracle statsOracle = (g, w) := by
  simp [WInst.getGui, h]

/-- Claim C7: once `getGui` has run on an instance (finalization), every
later `start`, `end`, `event`, `configure`, `clear`, `pause` or `resume`
only logs the disabled error and leaves the rest of the instance state,
including the call log, unchanged (and, the embedding being total, never
raises); a second `getGui` returns the already-built waterfall and the
unchanged instance, so the log is never reprocessed. -/
theorem C7_disabled_after_finalize (w : WInst)
    (profOracle : StatTarget → Except String JsVal)
    (statsOracle : String → Except String JsVal)
    (hw : w.waterfall = none) :
    ((w.getGui profOracle statsOracle).2.disabled = true) ∧
    ((w.getGui profOracle statsOracle).2.waterfall =
      some (w.getGui profOracle statsOracle).1) ∧
    (∀ (k : String) (t : Int) (d : List (String × String)),
      (w.getGui profOracle statsOracle).2.start k t d =
        (none, { (w.getGui profOracle statsOracle).2 with
          errors := (w.getGui profOracle statsOracle).2.errors ++ [disabledErr] })) ∧
    (∀ (k : String) (t : Int) (d : List (String × String)),
      (w.getGui profOracle statsOracle).2.end_ k t d =
        (none, { (w.getGui profOracle statsOracle).2 with
          errors := (w.getGui profOracle statsOracle).2.errors ++ [disabledErr] })) ∧
    (∀ (k : String) (t : Int) (d : List (String × String)),
      (w.getGui profOracle statsOracle).2.event k t d =
        (none, { (w.getGui profOracle statsOracle).2 with
          errors := (w.getGui profOracle statsOracle).2.errors ++ [disabledErr] })) ∧
    ((w.getGui profOracle statsOracle).2.clear =
      { (w.getGui profOracle statsOracle).2 with
        errors := (w.getGui profOracle statsOracle).2.errors ++ [disabledErr] }) ∧
    (∀ cfg : WConfig,
      (w.getGui profOracle statsOracle).2.configure cfg =
        { (w.getGui profOracle statsOracle).2 with
          errors := (w.getGui profOracle statsOracle).2.errors ++ [disabledErr] }) ∧
    ((w.getGui profOracle statsOracle).2.pause =
      { (w.getGui profOracle statsOracle).2 with
        errors := (w.getGui profOracle statsOracle).2.errors ++ [disabledErr] }) ∧
    ((w.getGui profOracle statsOracle).2.resume =
      { (w.getGui profOracle statsOracle).2 with
        errors := (w.getGui profOracle statsOracle).2.errors ++ [disabledErr] }) ∧
    ((w.getGui profOracle statsOracle).2.getGui profOracle statsOracle =
      w.getGui profOracle statsOracle) := by
  have hd : (w.getGui profOracle statsOracle).2.disabled = true := by
    simp [WInst.getGui, hw]
  have hwf : (w.getGui profOracle statsOracle).2.waterfall =
      some (w.getGui profOracle statsOracle).1 := by
    simp [WInst.getGui, hw]
  refine ⟨hd, hwf, ?_, ?_, ?_, ?_, ?_, ?_, ?_, ?_⟩
  · intro k t d
    simp [WInst.start, hd]
  · intro k t d
    simp [WInst.end_, hd]
  · intro k t d
    simp [WInst.event, hd]
  · simp [WInst.clear, hd]
  · intro cfg
    simp [WInst.configure, hd]
  · simp [WInst.pause, hd]
  · simp [WInst.resume, hd]
  · rw [getGui_cached _ _ _ _ hwf]

/-- Witness for C7 on a fresh unconfigured instance. -/
theorem C7_disabled_after_finalize_witness :
    (mkWaterfall none).waterfall = none ∧
    (((mkWaterfall none).getGui nullOracle nullOracleS).2.disabled = true ∧
     ((mkWaterfall none).getGui nullOracle nullOracleS).2.getGui nullOracle
       nullOracleS = (mkWaterfall none).getGui nullOracle nullOracleS) :=
  ⟨rfl,
   (C7_disabled_after_finalize (mkWaterfall none) nullOracle nullOracleS rfl).1,
   (C7_disabled_after_finalize (mkWaterfall none) nullOracle nullOracleS
     rfl).2.2.2.2.2.2.2.2.2⟩

/-! ## Claim C9 -/

/-- Total number of collected occurrences across all buckets. -/
def occCount (acc : StatAcc) : Nat :=
  (acc.stats.map (fun e => e.2.length)).sum

/-- Appending to an existing bucket grows the total count by one. -/
theorem occSum_set (stats : List (String × List StatOcc)) (k : String)
    (occ : StatOcc) :
    ∀ arr, assocGet stats k = some arr →
      ((assocSet stats k (arr ++ [occ])).map (fun e => e.2.length)).sum =
        (stats.map (fun e => e.2.length)).sum + 1 := by
  induction stats with
  | nil => intro arr h; simp [assocGet] at h
  | cons e rest ih =>
    intro arr h
    obtain ⟨k₁, v₁⟩ := e
    by_cases hk : k₁ = k
    · subst hk
      simp [assocGet] at h
      subst h
      simp [assocSet]
      omega
    · simp [assocGet, hk] at h
      simp [assocSet, hk, ih arr h]
      omega

/-- Installing a fresh bucket grows the total count by one. -/
theorem occSum_new (stats : List (String × List StatOcc)) (k : String)
    (occ : StatOcc) :
    ((stats ++ [(k, [occ])]).map (fun e => e.2.length)).sum =
      (stats.map (fun e => e.2.length)).sum + 1 := by
  simp

/-- Claim C9: a per-occurrence filter expression whose evaluation throws is
treated as null (the logged, catch branch of `_executeExpression`), never
as an exclusion; and `addStat` drops an occurrence exactly when the filter
evaluates to the explicit value false, otherwise the occurrence count grows
by one. -/
theorem C9_filter_throw_not_excluded (pf : String) (err : String)
    (t : StatTarget) (root : Option String) (acc : StatAcc) :
    (executeExpression (some pf) (.error err) = JsVal.null) ∧
    (∀ (e : Option String) (o : Except String JsVal),
      occCount (addStat e o t root acc) =
        if executeExpression e o = JsVal.bool false then occCount acc
        else occCount acc + 1) ∧
    (occCount (addStat (some pf) (.error err) t root acc) = occCount acc + 1) := by
  have hnull : executeExpression (some pf) (.error err) = JsVal.null := by
    simp [executeExpression]
  have hmain : ∀ (e : Option String) (o : Except String JsVal),
      occCount (addStat e o t root acc) =
        if executeExpression e o = JsVal.bool false then occCount acc
        else occCount acc + 1 := by
    intro e o
    by_cases hf : executeExpression e o = JsVal.bool false
    · simp [addStat, hf]
    · simp only [addStat, hf, if_neg hf, if_false]
      cases hget : assocGet acc.stats ((jsOrSS t.type t.name).getD "undefined") with
      | some arr =>
        simp [hget, occCount, occSum_set acc.stats _ _ arr hget]
      | none =>
        simp [hget, occCount, occSum_new]
  exact ⟨hnull, hmain, by rw [hmain (some pf) (.error err), if_neg (by rw [hnull]; intro h; cases h)]⟩

/-! ## Claim C8 -/

/-- A statistics occurrence with numeric times and a defined root name,
abstracted as an integer triple (start, end, name). -/
def statOccOf (v : Int × Int × String) : StatOcc :=
  ⟨.num v.1, .num v.2.1, some v.2.2⟩

/-- The duration of such an occurrence. -/
def durOf (v : Int × Int × String) : Int := v.2.1 - v.1

/-- Specification of the per-bucket aggregation loop: the total is the sum
of the durations, and the tracked minimum (maximum) is achieved by some
occurrence whose name is the one recorded. -/
theorem bucketFold_spec (l : List (Int × Int × String)) (hl : l ≠ []) :
    (bucketFold (l.map statOccOf)).totalDuration = .num ((l.map durOf).sum) ∧
    (∃ v ∈ l, (bucketFold (l.map statOccOf)).minDur = some (.num (durOf v)) ∧
      (bucketFold (l.map statOccOf)).minName = some v.2.2 ∧
      ∀ w ∈ l, durOf v ≤ durOf w) ∧
    (∃ v ∈ l, (bucketFold (l.map statOccOf)).maxDur = some (.num (durOf v)) ∧
      (bucketFold (l.map statOccOf)).maxName = some v.2.2 ∧
      ∀ w ∈ l, durOf w ≤ durOf v) := by
  induction l using List.reverseRecOn with
  | nil => exact absurd rfl hl
  | append_singleton xs x ih =>
    have hunf : bucketFold ((xs ++ [x]).map statOccOf) =
        bucketStep (bucketFold (xs.map statOccOf)) (statOccOf x) := by
      simp [bucketFold, List.foldl_append]
    rcases eq_or_ne xs [] with hxs | hxs
    · subst hxs
      refine ⟨?_, ⟨x, by simp, ?_, ?_, ?_⟩, ⟨x, by simp, ?_, ?_, ?_⟩⟩ <;>
        simp [bucketFold, bucketStep, statOccOf, durOf, jsSub, jsAdd, jsLt, jsGt]
    · obtain ⟨ht, ⟨mv, hmv, hmd, hmn, hmin⟩, ⟨xv, hxv, hxd, hxn, hmax⟩⟩ := ih hxs
      rw [hunf]
      refine ⟨?_, ?_, ?_⟩
      · simp [bucketStep, ht, statOccOf, durOf, jsSub, jsAdd]
        try omega
      · by_cases hlt : durOf x < durOf mv
        · simp only [durOf] at hlt
          refine ⟨x, by simp, ?_, ?_, ?_⟩
          · simp [bucketStep, hmd, statOccOf, durOf, jsSub, jsLt, hlt]
            try omega
          · simp [bucketStep, hmd, statOccOf, durOf, jsSub, jsLt, hlt]
            try omega
          · intro w hw
            rcases List.mem_append.1 hw with hw | hw
            · have := hmin w hw
              simp only [durOf] at this ⊢
              omega
            · simp at hw
              subst hw
              exact le_refl _
        · simp only [durOf] at hlt
          refine ⟨mv, List.mem_append_left _ hmv, ?_, ?_, ?_⟩
          · simp [bucketStep, hmd, statOccOf, durOf, jsSub, jsLt, hlt]
            try omega
          · simp [bucketStep, hmd, statOccOf, durOf, jsSub, jsLt, hlt, hmn]
            try omega
          · intro w hw
            rcases List.mem_append.1 hw with hw | hw
            · exact hmin w hw
            · simp at hw
              subst hw
              simp only [durOf] at hlt ⊢
              omega
      · by_cases hgt : durOf xv < durOf x
        · simp only [durOf] at hgt
          refine ⟨x, by simp, ?_, ?_, ?_⟩
          · simp [bucketStep, hxd, statOccOf, durOf, jsSub, jsGt, hgt]
            try omega
          · simp [bucketStep, hxd, statOccOf, durOf, jsSub, jsGt, hgt]
            try omega
          · intro w hw
            rcases List.mem_append.1 hw with hw | hw
            · have := hmax w hw
              simp only [durOf] at this ⊢
              omega
            · simp at hw
              subst hw
              exact le_refl _
        · simp only [durOf] at hgt
          refine ⟨xv, List.mem_append_left _ hxv, ?_, ?_, ?_⟩
          · simp [bucketStep, hxd, statOccOf, durOf, jsSub, jsGt, hgt]
            try omega
          · simp [bucketStep, hxd, statOccOf, durOf, jsSub, jsGt, hgt, hxn]
            try omega
          · intro w hw
            rcases List.mem_append.1 hw with hw | hw
            · exact hmax w hw
            · simp at hw
              subst hw
              simp only [durOf] at hgt ⊢
              omega

/-- Claim C8: for every statistics bucket of named numeric occurrences not
dropped by the stats filter, Total Duration is the rendering of the sum of
the occurrence durations, Min and Max Duration are the renderings of the
least and greatest occurrence durations, and each is annotated with the
name of an occurrence achieving it, unless that name equals the bucket's
own name. -/
theorem C8_bucket_stats (statType : String) (l : List (Int × Int × String))
    (sf : Option String) (outcome : Except String JsVal) (hl : l ≠ [])
    (hflt : executeExpression sf outcome ≠ JsVal.bool false) :
    ∃ st : BucketStat,
      computeBucketStat statType (l.map statOccOf) sf outcome = .stat st ∧
      st.calls = l.length ∧
      st.totalDuration = msTimeToString (.num ((l.map durOf).sum)) 4 ∧
      (∃ v ∈ l, (∀ w ∈ l, durOf v ≤ durOf w) ∧
        (v.2.2 = statType → st.minDuration = msTimeToString (.num (durOf v)) 4) ∧
        (v.2.2 ≠ statType → st.minDuration =
          msTimeToString (.num (durOf v)) 4 ++ " (" ++ v.2.2 ++ ")")) ∧
      (∃ v ∈ l, (∀ w ∈ l, durOf w ≤ durOf v) ∧
        (v.2.2 = statType → st.maxDuration = msTimeToString (.num (durOf v)) 4) ∧
        (v.2.2 ≠ statType → st.maxDuration =
          msTimeToString (.num (durOf v)) 4 ++ " (" ++ v.2.2 ++ ")")) := by
  obtain ⟨ht, ⟨mv, hmv, hmd, hmn, hmin⟩, ⟨xv, hxv, hxd, hxn, hmax⟩⟩ :=
    bucketFold_spec l hl
  have hE : computeBucketStat statType (l.map statOccOf) sf outcome = .stat
      { name := statType
        calls := (l.map statOccOf).length
        totalDuration := msTimeToString (bucketFold (l.map statOccOf)).totalDuration 4
        avgDuration := msTimeToString
          (jsDivN (bucketFold (l.map statOccOf)).totalDuration
            (l.map statOccOf).length) 4
        minDuration := msTimeToString
            ((bucketFold (l.map statOccOf)).minDur.getD .undef) 4 ++
          (if nameEq (bucketFold (l.map statOccOf)).minName statType then ""
           else " (" ++ optName (bucketFold (l.map statOccOf)).minName ++ ")")
        maxDuration := msTimeToString
            ((bucketFold (l.map statOccOf)).maxDur.getD .undef) 4 ++
          (if nameEq (bucketFold (l.map statOccOf)).maxName statType then ""
           else " (" ++ optName (bucketFold (l.map statOccOf)).maxName ++ ")")
        summary := (sortByLe summaryLe (bucketFold (l.map statOccOf)).summary).map
          (fun e => (e.1, msTimeToString e.2 4)) } := by
    simp only [computeBucketStat, if_neg hflt]
  refine ⟨_, hE, ?_, ?_, ?_, ?_⟩
  · simp
  · simp [ht]
  · refine ⟨mv, hmv, hmin, fun hname => ?_, fun hname => ?_⟩
    · simp [hmd, hmn, nameEq, hname]
    · simp [hmd, hmn, nameEq, optName, hname, String.append_assoc]
  · refine ⟨xv, hxv, hmax, fun hname => ?_, fun hname => ?_⟩
    · simp [hxd, hxn, nameEq, hname]
    · simp [hxd, hxn, nameEq, optName, hname, String.append_assoc]

/-- Witness for C8 on a two-occurrence bucket named T with occurrence
names A and B. -/
theorem C8_bucket_stats_witness :
    (([((0 : Int), (5 : Int), "A"), ((0 : Int), (3 : Int), "B")] :
        List (Int × Int × String)) ≠ [] ∧
     executeExpression none (.ok JsVal.null) ≠ JsVal.bool false) ∧
    ∃ st : BucketStat,
      computeBucketStat "T"
          (([((0 : Int), (5 : Int), "A"), ((0 : Int), (3 : Int), "B")] :
            List (Int × Int × String)).map statOccOf) none (.ok JsVal.null) =
        .stat st ∧
      st.calls = 2 ∧
      st.totalDuration = msTimeToString (.num 8) 4 ∧
      st.minDuration = msTimeToString (.num 3) 4 ++ " (" ++ "B" ++ ")" ∧
      st.maxDuration = msTimeToString (.num 5) 4 ++ " (" ++ "A" ++ ")" := by
  refine ⟨⟨by decide, by decide⟩, ?_⟩
  obtain ⟨st, hE, hc, ht, ⟨mv, hmv, hmin, hmne, hmne2⟩, ⟨xv, hxv, hmax, hxne, hxne2⟩⟩ :=
    C8_bucket_stats "T" [((0 : Int), (5 : Int), "A"), ((0 : Int), (3 : Int), "B")]
      none (.ok JsVal.null) (by decide) (by decide)
  have hmv3 : mv = ((0 : Int), (3 : Int), "B") := by
    rcases List.mem_cons.1 hmv with h | h
    · exfalso
      have h5 := hmin ((0 : Int), (3 : Int), "B") (by simp)
      rw [h] at h5
      simp [durOf] at h5
    · simpa using h
  have hxv5 : xv = ((0 : Int), (5 : Int), "A") := by
    rcases List.mem_cons.1 hxv with h | h
    · exact h
    · exfalso
      have h5 := hmax ((0 : Int), (5 : Int), "A") (by simp)
      simp at h
      rw [h] at h5
      simp [durOf] at h5
  subst hmv3
  subst hxv5
  exact ⟨st, hE, hc, by simpa [durOf] using ht,
    by simpa [durOf] using hmne2 (by decide),
    by simpa [durOf] using hxne2 (by decide)⟩

/-! ## Claim C10: parse/toString roundtrip on the key grammar

Key-string lemmas about `jsSplit`, `jsJoin` and `jsTrimL`, leading to the
roundtrip `pkToString (parsePKL k) = k` for grammar-valid keys free of
whitespace around their separators, and to the injectivity of the
reconciler's canonical-string match on such keys. -/

theorem jsSplit_ne_nil (sep : Char) (l : List Char) : jsSplit sep l ≠ [] := by
  cases l with
  | nil => simp [jsSplit]
  | cons c cs =>
    simp only [jsSplit]
    rcases h : jsSplit sep cs with _ | ⟨p, ps⟩
    · simp
    · by_cases hc : c = sep <;> simp [hc]

theorem jsJoin_jsSplit (sep : Char) (l : List Char) :
    jsJoin sep (jsSplit sep l) = l := by
  induction l with
  | nil => rfl
  | cons c cs ih =>
    rcases h : jsSplit sep cs with _ | ⟨p, ps⟩
    · exact absurd h (jsSplit_ne_nil sep cs)
    · rw [h] at ih
      by_cases hc : c = sep
      · have hs : jsSplit sep (c :: cs) = [] :: p :: ps := by
          simp only [jsSplit, h, if_pos hc]
        rw [hs]
        show [] ++ sep :: jsJoin sep (p :: ps) = c :: cs
        rw [ih, hc]
        rfl
      · have hs : jsSplit sep (c :: cs) = (c :: p) :: ps := by
          simp only [jsSplit, h, if_neg hc]
        rw [hs]
        cases ps with
        | nil =>
          show c :: p = c :: cs
          rw [show p = cs from ih]
        | cons q qs =>
          show (c :: p) ++ sep :: jsJoin sep (q :: qs) = c :: cs
          rw [← ih]
          rfl

theorem jsSplit_chunk_no_sep (sep : Char) (l : List Char) :
    ∀ p ∈ jsSplit sep l, p.contains sep = false := by
  induction l with
  | nil =>
    intro p hp
    simp [jsSplit] at hp
    simp [hp, List.contains]
  | cons c cs ih =>
    intro p hp
    rcases h : jsSplit sep cs with _ | ⟨q, qs⟩
    · exact absurd h (jsSplit_ne_nil sep cs)
    · rw [h] at ih
      by_cases hc : c = sep
      · rw [show jsSplit sep (c :: cs) = [] :: q :: qs by
          simp only [jsSplit, h, if_pos hc]] at hp
        rcases List.mem_cons.1 hp with hp | hp
        · simp [hp, List.contains]
        · exact ih p hp
      · rw [show jsSplit sep (c :: cs) = (c :: q) :: qs by
          simp only [jsSplit, h, if_neg hc]] at hp
        rcases List.mem_cons.1 hp with hp | hp
        · subst hp
          have hq := ih q (by simp)
          simp [List.contains] at hq ⊢
          exact ⟨fun he => hc he.symm, hq⟩
        · exact ih p (by simp [hp])

theorem jsSplit_chunk_chars (sep : Char) (l : List Char) :
    ∀ p ∈ jsSplit sep l, ∀ c ∈ p, c ∈ l := by
  induction l with
  | nil =>
    intro p hp
    simp [jsSplit] at hp
    simp [hp]
  | cons a cs ih =>
    intro p hp c hc
    rcases h : jsSplit sep cs with _ | ⟨q, qs⟩
    · exact absurd h (jsSplit_ne_nil sep cs)
    · rw [h] at ih
      by_cases ha : a = sep
      · rw [show jsSplit sep (a :: cs) = [] :: q :: qs by
          simp only [jsSplit, h, if_pos ha]] at hp
        rcases List.mem_cons.1 hp with hp | hp
        · subst hp
          simp at hc
        · exact List.mem_cons_of_mem a (ih p hp c hc)
      · rw [show jsSplit sep (a :: cs) = (a :: q) :: qs by
          simp only [jsSplit, h, if_neg ha]] at hp
        rcases List.mem_cons.1 hp with hp | hp
        · subst hp
          rcases List.mem_cons.1 hc with hc | hc
          · simp [hc]
          · exact List.mem_cons_of_mem a (ih q (by simp) c hc)
        · exact List.mem_cons_of_mem a (ih p (by simp [hp]) c hc)

theorem jsSplit_no_sep (sep : Char) (l : List Char)
    (h : l.contains sep = false) : jsSplit sep l = [l] := by
  induction l with
  | nil => rfl
  | cons c cs ih =>
    simp [List.contains] at h
    obtain ⟨hc, hcs⟩ := h
    have hcs' : cs.contains sep = false := by
      simp [List.contains]
      exact hcs
    rw [jsSplit, ih hcs']
    have hc2 : ¬ c = sep := fun he => hc he.symm
    simp [hc2]

theorem jsSplit_sep_cons (sep : Char) (p rest : List Char)
    (hp : p.contains sep = false) :
    jsSplit sep (p ++ sep :: rest) = p :: jsSplit sep rest := by
  induction p with
  | nil =>
    rcases h : jsSplit sep rest with _ | ⟨q, qs⟩
    · exact absurd h (jsSplit_ne_nil sep rest)
    · simp [jsSplit, h]
  | cons c cs ih =>
    simp [List.contains] at hp
    obtain ⟨hc, hcs⟩ := hp
    have hcs' : cs.contains sep = false := by
      simp [List.contains]
      exact hcs
    have ihr := ih hcs'
    have hc2 : ¬ c = sep := fun he => hc he.symm
    simp only [List.cons_append, jsSplit, List.append_eq]
    rw [ihr]
    simp [hc2]

theorem jsSplit_jsJoin (sep : Char) (parts : List (List Char))
    (hne : parts ≠ [])
    (hfree : ∀ p ∈ parts, p.contains sep = false) :
    jsSplit sep (jsJoin sep parts) = parts := by
  induction parts with
  | nil => exact absurd rfl hne
  | cons p ps ih =>
    cases ps with
    | nil =>
      show jsSplit sep p = [p]
      exact jsSplit_no_sep sep p (hfree p (by simp))
    | cons q qs =>
      show jsSplit sep (p ++ sep :: jsJoin sep (q :: qs)) = p :: q :: qs
      rw [jsSplit_sep_cons sep p _ (hfree p (by simp))]
      rw [ih (by simp) (fun r hr => hfree r (by simp [hr]))]

theorem jsJoin_cons_ne (sep : Char) (x : List Char) (l : List (List Char))
    (h : l ≠ []) : jsJoin sep (x :: l) = x ++ sep :: jsJoin sep l := by
  cases l with
  | nil => exact absurd rfl h
  | cons y ys => rfl

theorem jsJoin_append_last (sep : Char) (xs : List (List Char))
    (y z : List Char) :
    jsJoin sep (xs ++ [y]) ++ z = jsJoin sep (xs ++ [y ++ z]) := by
  induction xs with
  | nil => rfl
  | cons x xs ih =>
    rw [List.cons_append, List.cons_append,
      jsJoin_cons_ne sep x (xs ++ [y]) (by simp),
      jsJoin_cons_ne sep x (xs ++ [y ++ z]) (by simp)]
    simp [ih]

def noSepWS (k : List Char) : Bool :=
  (jsSplit '/' k).all (fun chunk =>
    decide (jsTrimL chunk = chunk) &&
    (jsSplit ':' chunk).all (fun p => decide (jsTrimL p = p)))

theorem noSepWS_spec (k : List Char) (h : noSepWS k = true) :
    ∀ chunk ∈ jsSplit '/' k, jsTrimL chunk = chunk ∧
      ∀ p ∈ jsSplit ':' chunk, jsTrimL p = p := by
  intro chunk hc
  have h₁ := List.all_eq_true.1 h chunk hc
  simp only [Bool.and_eq_true, decide_eq_true_eq, List.all_eq_true] at h₁
  exact ⟨h₁.1, fun p hp => by
    have := h₁.2 p hp
    simpa using this⟩

theorem map_trim_fixed (l : List (List Char)) (h : ∀ p ∈ l, jsTrimL p = p) :
    l.map jsTrimL = l := by
  induction l with
  | nil => rfl
  | cons p ps ih =>
    simp only [List.map_cons, h p (by simp), List.cons.injEq, true_and]
    exact ih (fun q hq => h q (by simp [hq]))

theorem filter_ne_of_all (l : List (List Char)) (h : ∀ p ∈ l, p ≠ []) :
    l.filter (fun p => p ≠ []) = l := by
  rw [List.filter_eq_self]
  intro p hp
  simp [h p hp]

theorem validPath_spec (path : List Char) (h : validPathL path = true) :
    ∃ first rest, jsSplit '/' path = first :: rest ∧
      ((first = [] ∧ rest ≠ [] ∧ ∀ p ∈ rest, p ≠ []) ∨
       (first ≠ [] ∧ ∀ p ∈ first :: rest, p ≠ [])) := by
  rcases hps : jsSplit '/' path with _ | ⟨first, rest⟩
  · exact absurd hps (jsSplit_ne_nil _ _)
  · refine ⟨first, rest, rfl, ?_⟩
    unfold validPathL at h
    rw [hps] at h
    by_cases hf : first = []
    · left
      simp only [hf, if_true, Bool.and_eq_true, decide_eq_true_eq,
        List.all_eq_true] at h
      refine ⟨hf, ?_, fun p hp => ?_⟩
      · simpa using h.1
      · simpa using h.2 p hp
    · right
      simp only [hf, if_false, List.all_eq_true, if_neg hf] at h
      refine ⟨hf, fun p hp => ?_⟩
      simpa using h p hp

theorem toList_mk (l : List Char) : (⟨l⟩ : String).toList = l := rfl

theorem mk_ne_empty (l : List Char) (h : l ≠ []) : (⟨l⟩ : String) ≠ "" := by
  intro he
  apply h
  have : (⟨l⟩ : String).data = ("" : String).data := by rw [he]
  simpa using this

theorem not_mem_of_contains_false {l : List Char} {a : Char}
    (h : l.contains a = false) : a ∉ l := by
  intro hm
  simp only [List.contains, List.elem_eq_mem, decide_eq_false_iff_not] at h
  exact h hm

theorem contains_false_of_not_mem {l : List Char} {a : Char}
    (h : a ∉ l) : l.contains a = false := by
  simp only [List.contains, List.elem_eq_mem, decide_eq_false_iff_not]
  exact h

theorem map_mk_toList (l : List (List Char)) :
    (l.map (fun p => (⟨p⟩ : String))).map String.toList = l := by
  rw [List.map_map]
  have : (String.toList ∘ fun p : List Char => (⟨p⟩ : String)) = id := by
    funext p
    rfl
  rw [this, List.map_id]

theorem contains_eq_true_of_mem {l : List Char} {a : Char}
    (h : a ∈ l) : l.contains a = true := by
  simp only [List.contains, List.elem_eq_mem, decide_eq_true_eq]
  exact h

theorem jsJoin_cons_head (sep c : Char) (p : List Char)
    (l : List (List Char)) :
    (jsJoin sep ((c :: p) :: l)).head? = some c := by
  cases l with
  | nil => rfl
  | cons q qs => rfl

theorem string_ext_toList {s t : String} (h : s.toList = t.toList) :
    s = t := by
  cases s
  cases t
  congr 1

theorem parsePKL_eq_nolabel (k : List Char) (profs initR : List (List Char))
    (lastC : List Char)
    (hprof : ((jsSplit '/' k).map jsTrimL).filter (fun p => p ≠ []) = profs)
    (hdec : profs = initR ++ [lastC])
    (hnc : lastC.contains ':' = false) :
    parsePKL k = ⟨decide (k.head? = some '/'),
      profs.map (fun p => (⟨p⟩ : String)), none⟩ := by
  unfold parsePKL
  simp only [hprof, hdec, List.getLast?_concat, hnc, Bool.false_eq_true,
    if_false]

theorem parsePKL_eq_label (k : List Char) (profs initR : List (List Char))
    (lastC lastSeg lbl : List Char)
    (hprof : ((jsSplit '/' k).map jsTrimL).filter (fun p => p ≠ []) = profs)
    (hdec : profs = initR ++ [lastC])
    (hsub : jsSplit ':' lastC = [lastSeg, lbl])
    (htseg : jsTrimL lastSeg = lastSeg) (htlbl : jsTrimL lbl = lbl)
    (hnc : lastC.contains ':' = true) :
    parsePKL k = ⟨decide (k.head? = some '/'),
      (initR ++ [lastSeg]).map (fun p => (⟨p⟩ : String)), some ⟨lbl⟩⟩ := by
  unfold parsePKL
  simp only [hprof, hdec, List.getLast?_concat, hnc, if_true, hsub,
    List.headD_cons, List.getD, List.get?_cons_succ, List.get?_cons_zero,
    Option.getD_some, htseg, htlbl, List.dropLast_concat]

theorem parsePKL_roundtrip (k : List Char) (hval : validKeyL k = true)
    (hws : noSepWS k = true) :
    (pkToString (parsePKL k)).toList = k := by
  have hwsS := noSepWS_spec k hws
  rcases hsp : jsSplit ':' k with _ | ⟨path, tl⟩
  · exact absurd hsp (jsSplit_ne_nil _ _)
  rcases tl with _ | ⟨lbl, tl2⟩
  · -- no duration label
    have hkp : path = k := by
      have h := jsJoin_jsSplit ':' k
      rw [hsp] at h
      exact h
    have hnc : k.contains ':' = false := by
      have h := jsSplit_chunk_no_sep ':' k path (by rw [hsp]; simp)
      rwa [hkp] at h
    have hvalp : validPathL k = true := by
      unfold validKeyL at hval
      rw [hsp, hkp] at hval
      exact hval
    obtain ⟨first, rest, hps, hcases⟩ := validPath_spec k hvalp
    have htrim : ∀ c ∈ first :: rest, jsTrimL c = c := by
      intro c hc
      exact (hwsS c (by rw [hps]; exact hc)).1
    rcases hcases with ⟨hf, hrne, hall⟩ | ⟨hf, hall⟩
    · -- rooted, no label
      obtain ⟨initR, lastC, hdec⟩ :=
        (List.eq_nil_or_concat rest).resolve_left hrne
      rw [List.concat_eq_append] at hdec
      have hprof : ((jsSplit '/' k).map jsTrimL).filter
          (fun p => p ≠ []) = rest := by
        rw [hps, map_trim_fixed _ htrim, hf]
        rw [show (([] : List Char) :: rest).filter (fun p => p ≠ []) =
            rest.filter (fun p => p ≠ []) by simp]
        exact filter_ne_of_all rest hall
      have hncL : lastC.contains ':' = false := by
        apply contains_false_of_not_mem
        intro hm
        exact not_mem_of_contains_false hnc
          (jsSplit_chunk_chars '/' k lastC (by rw [hps, hdec]; simp) ':' hm)
      have hparse := parsePKL_eq_nolabel k rest initR lastC hprof hdec hncL
      obtain ⟨r1, rs, hrest⟩ : ∃ r1 rs, rest = r1 :: rs := by
        cases rest with
        | nil => exact absurd rfl hrne
        | cons a b => exact ⟨a, b, rfl⟩
      have hk2 : jsJoin '/' ([] :: rest) = k := by
        rw [← hf, ← hps]
        exact jsJoin_jsSplit '/' k
      have hhead : k.head? = some '/' := by
        rw [← hk2, hrest]
        rfl
      rw [hparse]
      simp only [pkToString, toList_mk, map_mk_toList, hhead,
        Option.some.injEq, decide_eq_true_eq]
      rw [← hk2, hrest, jsJoin_cons_ne '/' [] (r1 :: rs) (by simp)]
      simp
    · -- non-rooted, no label
      have hprof : ((jsSplit '/' k).map jsTrimL).filter
          (fun p => p ≠ []) = first :: rest := by
        rw [hps, map_trim_fixed _ htrim]
        exact filter_ne_of_all _ hall
      obtain ⟨initR, lastC, hdec⟩ :=
        (List.eq_nil_or_concat (first :: rest)).resolve_left (by simp)
      rw [List.concat_eq_append] at hdec
      have hncL : lastC.contains ':' = false := by
        apply contains_false_of_not_mem
        intro hm
        exact not_mem_of_contains_false hnc
          (jsSplit_chunk_chars '/' k lastC (by rw [hps, hdec]; simp) ':' hm)
      have hparse :=
        parsePKL_eq_nolabel k (first :: rest) initR lastC hprof hdec hncL
      obtain ⟨c, f2, hfirst⟩ : ∃ c f2, first = c :: f2 := by
        cases first with
        | nil => exact absurd rfl hf
        | cons a b => exact ⟨a, b, rfl⟩
      have hk2 : jsJoin '/' (first :: rest) = k := by
        rw [← hps]
        exact jsJoin_jsSplit '/' k
      have hcne : c ≠ '/' := by
        intro he
        have h1 := jsSplit_chunk_no_sep '/' k first (by rw [hps]; simp)
        exact not_mem_of_contains_false h1 (he ▸ (by rw [hfirst]; simp))
      have hhead : k.head? = some c := by
        rw [← hk2, hfirst, jsJoin_cons_head]
      rw [hparse]
      simp only [pkToString, toList_mk, map_mk_toList, hhead,
        Option.some.injEq, hcne, decide_eq_true_eq]
      simp only [if_false, List.nil_append, List.append_nil]
      exact hk2
  rcases tl2 with _ | ⟨x, xs⟩
  · -- duration label present
    have hk2 : path ++ ':' :: lbl = k := by
      have h := jsJoin_jsSplit ':' k
      rw [hsp] at h
      exact h
    have hvals : validPathL path = true ∧ lbl ≠ [] ∧
        lbl.contains '/' = false := by
      unfold validKeyL at hval
      rw [hsp] at hval
      simp only [Bool.and_eq_true, Bool.not_eq_true',
        decide_eq_true_eq, ne_eq] at hval
      exact ⟨hval.1.1, hval.1.2, hval.2⟩
    obtain ⟨hvp, hlblne, hlblslash⟩ := hvals
    have hpathnc : path.contains ':' = false :=
      jsSplit_chunk_no_sep ':' k path (by rw [hsp]; simp)
    have hlblnc : lbl.contains ':' = false :=
      jsSplit_chunk_no_sep ':' k lbl (by rw [hsp]; simp)
    obtain ⟨first, rest, hps, hcases⟩ := validPath_spec path hvp
    have hpfree : ∀ p ∈ first :: rest, p.contains '/' = false := by
      intro p hp
      exact jsSplit_chunk_no_sep '/' path p (by rw [hps]; exact hp)
    have hpcolon : ∀ p ∈ first :: rest, p.contains ':' = false := by
      intro p hp
      apply contains_false_of_not_mem
      intro hm
      exact not_mem_of_contains_false hpathnc
        (jsSplit_chunk_chars '/' path p (by rw [hps]; exact hp) ':' hm)
    obtain ⟨initP, lastSeg, hdecP⟩ :=
      (List.eq_nil_or_concat (first :: rest)).resolve_left (by simp)
    rw [List.concat_eq_append] at hdecP
    have hlastSegmem : lastSeg ∈ first :: rest := by rw [hdecP]; simp
    have hpathJ : jsJoin '/' (first :: rest) = path := by
      rw [← hps]
      exact jsJoin_jsSplit '/' path
    have hkJ : jsJoin '/' (initP ++ [lastSeg ++ ':' :: lbl]) = k := by
      rw [← jsJoin_append_last, ← hdecP, hpathJ]
      exact hk2
    have hlastCfree : (lastSeg ++ ':' :: lbl).contains '/' = false := by
      apply contains_false_of_not_mem
      intro hm
      rcases List.mem_append.1 hm with hm | hm
      · exact not_mem_of_contains_false (hpfree lastSeg hlastSegmem) hm
      · rcases List.mem_cons.1 hm with hm | hm
        · exact absurd hm (by decide)
        · exact not_mem_of_contains_false hlblslash hm
    have hchunksfree :
        ∀ p ∈ initP ++ [lastSeg ++ ':' :: lbl], p.contains '/' = false := by
      intro p hp
      rcases List.mem_append.1 hp with hp | hp
      · exact hpfree p (by rw [hdecP]; exact List.mem_append.2 (Or.inl hp))
      · rw [List.mem_singleton.1 hp]
        exact hlastCfree
    have hsplitk : jsSplit '/' k = initP ++ [lastSeg ++ ':' :: lbl] := by
      rw [← hkJ]
      exact jsSplit_jsJoin '/' _ (by simp) hchunksfree
    have hsub : jsSplit ':' (lastSeg ++ ':' :: lbl) = [lastSeg, lbl] := by
      rw [jsSplit_sep_cons ':' lastSeg _ (hpcolon lastSeg hlastSegmem),
        jsSplit_no_sep ':' lbl hlblnc]
    have hlastCmem : lastSeg ++ ':' :: lbl ∈ jsSplit '/' k := by
      rw [hsplitk]
      simp
    have htseg : jsTrimL lastSeg = lastSeg :=
      (hwsS _ hlastCmem).2 lastSeg (by rw [hsub]; simp)
    have htlbl : jsTrimL lbl = lbl :=
      (hwsS _ hlastCmem).2 lbl (by rw [hsub]; simp)
    have htrimchunks :
        ∀ p ∈ initP ++ [lastSeg ++ ':' :: lbl], jsTrimL p = p := by
      intro p hp
      exact (hwsS p (by rw [hsplitk]; exact hp)).1
    have hnclastC : (lastSeg ++ ':' :: lbl).contains ':' = true :=
      contains_eq_true_of_mem (by simp)
    have hpathhead := hpathJ
    rcases hcases with ⟨hf, hrne, hall⟩ | ⟨hf, hall⟩
    · -- rooted with label
      cases initP with
      | nil =>
        rw [List.nil_append] at hdecP
        simp only [List.cons.injEq] at hdecP
        exact absurd hdecP.2 hrne
      | cons i0 initR =>
        rw [List.cons_append] at hdecP
        simp only [List.cons.injEq] at hdecP
        obtain ⟨hi0, hrest⟩ := hdecP
        have hi0e : i0 = [] := hi0.symm.trans hf
        have hprof : ((jsSplit '/' k).map jsTrimL).filter
            (fun p => p ≠ []) = initR ++ [lastSeg ++ ':' :: lbl] := by
          rw [hsplitk, map_trim_fixed _ htrimchunks, List.cons_append, hi0e,
            show (([] : List Char) :: (initR ++ [lastSeg ++ ':' :: lbl])).filter
              (fun p => p ≠ []) =
              (initR ++ [lastSeg ++ ':' :: lbl]).filter (fun p => p ≠ [])
              by simp]
          apply filter_ne_of_all
          intro p hp
          rcases List.mem_append.1 hp with hp | hp
          · exact hall p (by rw [hrest]; exact List.mem_append.2 (Or.inl hp))
          · rw [List.mem_singleton.1 hp]
            simp
        have hparse := parsePKL_eq_label k
          (initR ++ [lastSeg ++ ':' :: lbl]) initR
          (lastSeg ++ ':' :: lbl) lastSeg lbl hprof rfl hsub htseg htlbl
          hnclastC
        have hhead : k.head? = some '/' := by
          rw [← hkJ, List.cons_append, hi0e,
            jsJoin_cons_ne '/' [] (initR ++ [lastSeg ++ ':' :: lbl])
              (by simp)]
          simp
        rw [hparse]
        simp only [pkToString, toList_mk, map_mk_toList, hhead,
          Option.some.injEq, decide_eq_true_eq,
          if_neg (mk_ne_empty lbl hlblne)]
        rw [List.append_assoc, jsJoin_append_last,
          ← hkJ, List.cons_append, hi0e,
          jsJoin_cons_ne '/' [] (initR ++ [lastSeg ++ ':' :: lbl]) (by simp)]
        simp
    · -- non-rooted with label
      have hprof : ((jsSplit '/' k).map jsTrimL).filter
          (fun p => p ≠ []) = initP ++ [lastSeg ++ ':' :: lbl] := by
        rw [hsplitk, map_trim_fixed _ htrimchunks]
        apply filter_ne_of_all
        intro p hp
        rcases List.mem_append.1 hp with hp | hp
        · exact hall p (by rw [hdecP]; exact List.mem_append.2 (Or.inl hp))
        · rw [List.mem_singleton.1 hp]
          simp
      have hparse := parsePKL_eq_label k
        (initP ++ [lastSeg ++ ':' :: lbl]) initP
        (lastSeg ++ ':' :: lbl) lastSeg lbl hprof rfl hsub htseg htlbl
        hnclastC
      obtain ⟨c, f2, hfirst⟩ : ∃ c f2, first = c :: f2 := by
        cases first with
        | nil => exact absurd rfl hf
        | cons a b => exact ⟨a, b, rfl⟩
      have hcne : c ≠ '/' := by
        intro he
        exact not_mem_of_contains_false (hpfree first (by simp))
          (he ▸ (by rw [hfirst]; simp))
      have hph : path.head? = some c := by
        rw [← hpathJ, hfirst, jsJoin_cons_head]
      have hhead : k.head? = some c := by
        rw [← hk2]
        cases path with
        | nil => exact absurd hph (by simp)
        | cons a as =>
          simp only [List.head?_cons, Option.some.injEq] at hph
          simp [hph]
      rw [hparse]
      simp only [pkToString, toList_mk, map_mk_toList, hhead,
        Option.some.injEq, hcne, decide_eq_true_eq,
        if_neg (mk_ne_empty lbl hlblne)]
      simp only [if_false, List.nil_append]
      rw [jsJoin_append_last]
      exact hkJ
  · -- three or more colon chunks: the key grammar rejects this
    unfold validKeyL at hval
    rw [hsp] at hval
    exact Bool.noConfusion hval

/-- Claim C10: for every raw key string matching the path grammar with no
whitespace adjacent to its separators or at its ends, parsing then
re-canonicalizing is the identity, and consequently two such raw keys
compare equal under the reconciler's canonical-string match exactly when
they are equal as strings. -/
theorem C10_parse_roundtrip (k : String) (hval : validKey k = true)
    (hws : noSepWS k.toList = true) :
    pkToString (parsePK k) = k ∧
    ∀ k₂ : String, validKey k₂ = true → noSepWS k₂.toList = true →
      ((pkToString (parsePK k) == pkToString (parsePK k₂)) = true ↔
        k = k₂) := by
  have hrt : ∀ s : String, validKey s = true → noSepWS s.toList = true →
      pkToString (parsePK s) = s := by
    intro s hv hw
    exact string_ext_toList (parsePKL_roundtrip s.toList hv hw)
  refine ⟨hrt k hval hws, fun k₂ hv₂ hw₂ => ?_⟩
  rw [hrt k hval hws, hrt k₂ hv₂ hw₂, beq_iff_eq]

theorem C10_parse_roundtrip_witness :
    validKey "/a/b:c" = true ∧ noSepWS "/a/b:c".toList = true ∧
    pkToString (parsePK "/a/b:c") = "/a/b:c" ∧
    ((pkToString (parsePK "/a/b:c") == pkToString (parsePK "a")) = true ↔
      ("/a/b:c" : String) = "a") := by
  have h := C10_parse_roundtrip "/a/b:c" (by decide) (by decide)
  exact ⟨by decide, by decide, h.1, h.2 "a" (by decide) (by decide)⟩
